import Mathlib

/-!
Verification development for the `cnotch/scheduler` Go repository.

The development shallowly embeds the parts of the repository that the
checked properties talk about:

* the schedule combinators `union`, `minus`, `intersect` (`schedule.go`),
  modelled over an instant model of `time.Time`;
* the cron engine (`cron/cron.go`): `matchField`, `minValue`, `matchYear`,
  `calculateActualDaysOfMonth`, and the `Next` scanning cascade, modelled
  over a civil date-time model of `time.Time`;
* the field parser for cron entries (`cron/parse.go`): `parseEntry`,
  `parseStep` and the per-field parsers;
* the dispatch core's `removeJob` and the job queue's remove operation.

Machine integers (`uint64`) are modelled as `Nat` with explicit reduction
modulo `2 ^ 64` at the points where Go wraps (left shifts).  Loops are
modelled with an explicit fuel parameter; `none` means the corresponding
Go loop has not finished within the given fuel.
-/

/-! ### Instant model of `time.Time` for the schedule combinators

The combinators in `schedule.go` use `time.Time` only through
`Before`, `After`, `Equal` and `IsZero`.  `Before`/`After`/`Equal`
compare absolute instants and `IsZero` recognises exactly the zero
instant (January 1, year 1, 00:00:00 UTC), so for the combinators a
`time.Time` is faithfully represented by an integer instant with the
zero value at `0`: `Before` is `<`, `After` is `>`, `Equal` is `=`,
`IsZero` is `= 0`.  A `Schedule` is a function from instants to
instants, exactly as the `Schedule` interface (`ScheduleFunc`). -/

/-- `union.Next` from `schedule.go`:
`t1 := l.Next(t); t2 := r.Next(t); if t1.Before(t2) && !t1.IsZero() { return t1 }; return t2`. -/
def unionNext (l r : Int → Int) (t : Int) : Int :=
  let t1 := l t
  let t2 := r t
  if t1 < t2 ∧ t1 ≠ 0 then t1 else t2

/-- The loop body of `intersect.Next` from `schedule.go`, with fuel.
The Go loop runs on state `(t1, t2)`:
`if t1.IsZero() || t2.IsZero() { return t1 };
 if t1.Equal(t2) { return t1 };
 if t1.Before(t2) { t1 = l.Next(t1) } else { t2 = r.Next(t2) }`. -/
def intersectLoop : Nat → (Int → Int) → (Int → Int) → Int → Int → Option Int
  | 0, _, _, _, _ => none
  | fuel + 1, l, r, t1, t2 =>
    if t1 = 0 ∨ t2 = 0 then some t1
    else if t1 = t2 then some t1
    else if t1 < t2 then intersectLoop fuel l r (l t1) t2
    else intersectLoop fuel l r t1 (r t2)

/-- `intersect.Next` from `schedule.go`: runs the loop from
`t1 := l.Next(t)`, `t2 := r.Next(t)`. -/
def intersectNext (fuel : Nat) (l r : Int → Int) (t : Int) : Option Int :=
  intersectLoop fuel l r (l t) (r t)

/-- The inner catch-up loop of `minus.Next` from `schedule.go`:
`for t1.After(t2) { t2 = ms.r.Next(t2) }`, returning the final `t2`. -/
def minusCatchUp : Nat → (Int → Int) → Int → Int → Option Int
  | 0, _, _, _ => none
  | fuel + 1, r, t1, t2 =>
    if t2 < t1 then minusCatchUp fuel r t1 (r t2) else some t2

/-- The outer loop of `minus.Next` from `schedule.go` on state `(t1, t2)`:
`if t2.IsZero() { return t1 };
 if t1.Before(t2) { return t1 };
 if t1.Equal(t2) { t1 = l.Next(t1); t2 = r.Next(t2); continue };
 for t1.After(t2) { t2 = r.Next(t2) }`. -/
def minusLoop : Nat → (Int → Int) → (Int → Int) → Int → Int → Option Int
  | 0, _, _, _, _ => none
  | fuel + 1, l, r, t1, t2 =>
    if t2 = 0 then some t1
    else if t1 < t2 then some t1
    else if t1 = t2 then minusLoop fuel l r (l t1) (r t2)
    else
      match minusCatchUp fuel r t1 t2 with
      | none => none
      | some t2x => minusLoop fuel l r t1 t2x

/-- `minus.Next` from `schedule.go`: runs the loop from
`t1 := l.Next(t)`, `t2 := r.Next(t)`. -/
def minusNext (fuel : Nat) (l r : Int → Int) (t : Int) : Option Int :=
  minusLoop fuel l r (l t) (r t)

/-- A schedule is strictly increasing until terminal: every call either
returns the terminal (zero) instant or an instant strictly after the
argument.  This is claim C1's contract, used as a hypothesis by the
combinator claims. -/
def StrictlyIncreasingUntilTerminal (s : Int → Int) : Prop :=
  ∀ t : Int, s t = 0 ∨ t < s t

/-- A schedule firing once, at instant 1 (for instants before 1). -/
def schedFireAt1 : Int → Int := fun t => if t < 1 then 1 else 0

/-- The schedule that is immediately terminal at every instant. -/
def schedNever : Int → Int := fun _ => 0

/-- A schedule firing once at instant 5. -/
def schedFireAt5 : Int → Int := fun t => if t < 5 then 5 else 0

/-- A schedule firing once at instant 3. -/
def schedFireAt3 : Int → Int := fun t => if t < 3 then 3 else 0

/-! ### 64-bit words

Go `uint64` values are modelled as `Nat`; a left shift wraps modulo
`2 ^ 64` exactly as in Go, and `bits.Len64` is `Nat.size`. -/

/-- Go `x << i` on `uint64` (wraps modulo `2 ^ 64`). -/
def shl64 (x i : Nat) : Nat := (x <<< i) % 2 ^ 64

/-- Go `x >> i` on `uint64`. -/
def shr64 (x i : Nat) : Nat := x >>> i

/-- Go `math/bits.TrailingZeros64`, with at most 64 division steps
(`trailingZeros64 0 = 64`, as in Go). -/
def tzAux : Nat → Nat → Nat
  | 0, _ => 0
  | f + 1, n => if n % 2 = 1 then 0 else tzAux f (n / 2) + 1

/-- Go `math/bits.TrailingZeros64`. -/
def trailingZeros64 (n : Nat) : Nat := tzAux 64 n

/-! ### Constants from `cron/cron.go` -/

/-- `notFountIdx` (the source's spelling): the sentinel for "no match". -/
def notFountIdx : Nat := 64

/-- `startBit = 1 << 63`. -/
def startBit : Nat := 1 <<< 63

/-- Bits for legal second values 0–59 (MSB origin). -/
def secondsMask : Nat := 0xfffffffffffffff0

/-- Bits for legal minute values 0–59 (MSB origin). -/
def minutesMask : Nat := 0xfffffffffffffff0

/-- Bits for legal hour values 0–23 (MSB origin). -/
def hoursMask : Nat := 0xffffff0000000000

/-- Bits for legal day-of-month values 1–31 (MSB origin). -/
def daysMask : Nat := 0x7fffffff00000000

/-- Bits for legal month values 1–12 (MSB origin). -/
def monthsMask : Nat := 0x7ff8000000000000

/-- Bits for the 5-week day-of-week window, values 1–35 (MSB origin). -/
def weeksMask : Nat := 0x7ffffffff0000000

/-- Go `math.MaxUint64`. -/
def maxUint64 : Nat := 0xffffffffffffffff

/-! ### The parsed cron expression (`cron.Expression`)

The raw `expression` string field is omitted: no checked operation reads
it.  The `[3]uint64` year array is modelled as three word fields. -/

/-- The parsed form of a cron expression (`cron.Expression`). -/
structure Expression where
  seconds : Nat
  minutes : Nat
  hours : Nat
  daysOfMonth : Nat
  workdaysOfMonth : Nat
  lastDayOfMonth : Bool
  lastWorkdayOfMonth : Bool
  months : Nat
  daysOfWeek : Nat
  ithWeekdaysOfWeek : Nat
  lastWeekdaysOfWeek : Nat
  years0 : Nat
  years1 : Nat
  years2 : Nat
deriving DecidableEq, Repr

/-- `expr.years[i]` for `i < 3`. -/
def Expression.yearsWord (e : Expression) : Nat → Nat
  | 0 => e.years0
  | 1 => e.years1
  | _ => e.years2

/-! ### Civil model of `time.Time` for the cron engine

The cron engine reads a `time.Time` through its civil components
(`Year`, `Month`, `Day`, `Hour`, `Minute`, `Second`, `Location`) and
rebuilds results with `time.Date`.  A `time.Time` is modelled as the
record of those components plus an opaque location tag; the location is
treated as a fixed-offset zone, so civil components determine the
instant and the instant order is the lexicographic civil order.
`time.Date` normalises out-of-range components in Go; the engine only
ever passes in-range components for well-formed expressions (this is
proved below as part of the validity results), so `goDate` builds the
record directly. -/

/-- Model of `time.Time` for the cron engine: civil components and a
location tag. -/
structure GoTime where
  year : Int
  month : Nat
  day : Nat
  hour : Nat
  minute : Nat
  second : Nat
  nsec : Nat
  loc : Nat
deriving DecidableEq, Repr

/-- The zero `time.Time` (January 1, year 1, 00:00:00 UTC). -/
def zeroTime : GoTime := ⟨1, 1, 1, 0, 0, 0, 0, 0⟩

/-- `t.IsZero()`: the instant is the zero instant.  The location tag is
not part of the instant (all modelled locations have offset zero). -/
def GoTime.isZero (t : GoTime) : Bool :=
  decide (t.year = 1 ∧ t.month = 1 ∧ t.day = 1 ∧ t.hour = 0 ∧
    t.minute = 0 ∧ t.second = 0 ∧ t.nsec = 0)

/-- `t1.Before(t2)` in the fixed-offset model: lexicographic order on the
civil components. -/
def civilBefore (a b : GoTime) : Prop :=
  a.year < b.year ∨ (a.year = b.year ∧
    (a.month < b.month ∨ (a.month = b.month ∧
      (a.day < b.day ∨ (a.day = b.day ∧
        (a.hour < b.hour ∨ (a.hour = b.hour ∧
          (a.minute < b.minute ∨ (a.minute = b.minute ∧
            (a.second < b.second ∨
              (a.second = b.second ∧ a.nsec < b.nsec)))))))))))

instance (a b : GoTime) : Decidable (civilBefore a b) := by
  unfold civilBefore; infer_instance

/-- `time.Date` on in-range components (see the section comment). -/
def goDate (year : Int) (month day hour minute second nsec loc : Nat) : GoTime :=
  ⟨year, month, day, hour, minute, second, nsec, loc⟩

/-- Gregorian leap year, as normalised by Go's `time` package. -/
def isLeapYear (y : Int) : Bool := (y % 4 == 0 && y % 100 != 0) || y % 400 == 0

/-- The real last day of a month (Go: `Date(y, m+1, 0).Day()`). -/
def daysInMonth (y : Int) (m : Nat) : Nat :=
  match m with
  | 2 => if isLeapYear y then 29 else 28
  | 4 => 30
  | 6 => 30
  | 9 => 30
  | 11 => 30
  | _ => 31

/-- Civil days since 1970-01-01 of `(y, m, d)` (model of the Go `time`
package's absolute-date arithmetic; floor division throughout). -/
def daysFromCivil (y : Int) (m d : Nat) : Int :=
  let yv : Int := if m ≤ 2 then y - 1 else y
  let era : Int := yv / 400
  let yoe : Int := yv - era * 400
  let mp : Nat := (m + 9) % 12
  let doy : Int := (153 * mp + 2) / 5 + d - 1
  let doe : Int := yoe * 365 + yoe / 4 - yoe / 100 + doy
  era * 146097 + doe - 719468

/-- `time.Time.Weekday()` of the civil date `(y, m, d)`: Sunday is `0`.
1970-01-01 was a Thursday (`4`). -/
def weekday (y : Int) (m d : Nat) : Nat :=
  ((daysFromCivil y m d + 4) % 7).toNat

/-- A `GoTime` whose components are in range (every Go `time.Time` is). -/
def ValidTime (t : GoTime) : Prop :=
  1 ≤ t.month ∧ t.month ≤ 12 ∧ 1 ≤ t.day ∧ t.day ≤ daysInMonth t.year t.month ∧
    t.hour ≤ 23 ∧ t.minute ≤ 59 ∧ t.second ≤ 59 ∧ t.nsec < 1000000000

instance (t : GoTime) : Decidable (ValidTime t) := by
  unfold ValidTime
  infer_instance

/-! ### The scanning primitives of `cron/cron.go` -/

/-- Go `math/bits.Len64`, with at most 64 halving steps so that it
evaluates by kernel reduction; agrees with `Nat.size` on 64-bit words
(`len64_eq_size`). -/
def lenAux : Nat → Nat → Nat
  | 0, _ => 0
  | f + 1, n => if n = 0 then 0 else lenAux f (n / 2) + 1

/-- Go `math/bits.Len64`. -/
def len64 (n : Nat) : Nat := lenAux 64 n

/-- `matchField(v, mask, i) = 64 - bits.Len64(v & ((mask << i) >> i))`. -/
def matchField (v mask : Nat) (i : Nat) : Nat :=
  64 - len64 (v &&& shr64 (shl64 mask i) i)

/-- `minValue(v) = 64 - bits.Len64(v)`. -/
def minValue (v : Nat) : Nat := 64 - len64 v

/-- The word loop inside `matchYear`: scan year words `i, i+1, 2` for the
first set bit at index ≥ `bit` (`bit` is reset to 0 after the first
word).  The loop runs at most three iterations. -/
def matchYearLoop (e : Expression) : Nat → Nat → Nat → Int
  | 0, _, _ => 0
  | f + 1, i, bit =>
    if i < 3 then
      let found := matchField (e.yearsWord i) maxUint64 bit
      if found ≠ notFountIdx then (((i <<< 6) + found + 1970 : Nat) : Int)
      else matchYearLoop e f (i + 1) 0
    else 0

/-- `Expression.matchYear`: the first year ≥ `year` (clamped up to 1970)
matching the year words, or `0` when the scan passes 2099. -/
def matchYear (e : Expression) (year : Int) : Int :=
  if 2099 < year then 0
  else
    let y := if year < 1970 then 1970 else year
    let idx : Nat := (y - 1970).toNat
    matchYearLoop e 3 (idx >>> 6) (idx &&& 0x3f)

/-! ### Day-of-month / day-of-week reconciliation (`calculateActualDaysOfMonth`) -/

/-- `lastWorkdayOfMonth` from `cron/cron.go`: Saturday steps back one day,
Sunday two (Go `time.Saturday = 6`, `time.Sunday = 0`). -/
def lastWorkdayOfMonth (lastDay : Nat) (lastWeekday : Nat) : Nat :=
  if lastWeekday = 6 then lastDay - 1
  else if lastWeekday = 0 then lastDay - 2
  else lastDay

/-- `firstWorkdayOfMonth` from `cron/cron.go`: a Saturday 1st yields the
3rd, a Sunday 1st yields the 2nd. -/
def firstWorkdayOfMonth (firstWeekday : Nat) : Nat :=
  if firstWeekday = 6 then 3
  else if firstWeekday = 0 then 2
  else 1

/-- `midWorkdayOfMonth` from `cron/cron.go`: Saturday steps back,
Sunday steps forward. -/
def midWorkdayOfMonth (midDay : Nat) (wd : Nat) : Nat :=
  if wd = 6 then midDay - 1
  else if wd = 0 then midDay + 1
  else midDay

/-- The month mask restricted to days `1 … lastDay`:
`(daysMask >> (63 - lastDay)) << (63 - lastDay)`. -/
def monthMask (lastDay : Nat) : Nat :=
  shl64 (shr64 daysMask (63 - lastDay)) (63 - lastDay)

/-- The `for v := start; v <= end && v < lastDay; v++` loop of the `nW`
block in `calculateActualDaysOfMonth`, with fuel (at most 64 useful
iterations). -/
def wdayLoop (w firstWd lastDay endV : Nat) : Nat → Nat → Nat → Nat
  | 0, _, acc => acc
  | f + 1, v, acc =>
    if v ≤ endV ∧ v < lastDay then
      let acc :=
        if w &&& shr64 startBit v ≠ 0 then
          acc ||| shr64 startBit (midWorkdayOfMonth v ((firstWd + v - 1) % 7))
        else acc
      wdayLoop w firstWd lastDay endV f (v + 1) acc
    else acc

/-- The bits contributed by the `day-of-month != *` block of
`calculateActualDaysOfMonth`: the raw day set, the `L` bit, the `LW`
bit and the `nW` translations. -/
def domDerivedDays (e : Expression) (year : Int) (month : Nat) : Nat :=
  let lastDay := daysInMonth year month
  let thisMask := monthMask lastDay
  let lastWd := weekday year month lastDay
  let firstWd := weekday year month 1
  let a := e.daysOfMonth
  let a := if e.lastDayOfMonth then a ||| shr64 startBit lastDay else a
  let a :=
    if e.lastWorkdayOfMonth then
      a ||| shr64 startBit (lastWorkdayOfMonth lastDay lastWd)
    else a
  let w := e.workdaysOfMonth &&& thisMask
  if w ≠ 0 then
    let start := 64 - len64 w
    let endV := 63 - trailingZeros64 w
    let a := if start = 1 then a ||| shr64 startBit (firstWorkdayOfMonth firstWd) else a
    let start := if start = 1 then start + 1 else start
    let a := wdayLoop w firstWd lastDay endV 64 start a
    if endV = lastDay then a ||| shr64 startBit (lastWorkdayOfMonth lastDay lastWd) else a
  else a

/-- The bits contributed by the `day-of-week != *` block of
`calculateActualDaysOfMonth`: the replicated 5-week template, the `d#n`
template and the `dL` template (high weeks masked off), each shifted so
that bit 1 is the first day of the month. -/
def dowDerivedDays (e : Expression) (year : Int) (month : Nat) : Nat :=
  let lastDay := daysInMonth year month
  let firstWd := weekday year month 1
  let b := shl64 e.daysOfWeek firstWd
  let b := b ||| shl64 e.ithWeekdaysOfWeek firstWd
  let lastWeekdays := shl64 e.lastWeekdaysOfWeek firstWd
  let lastWeekdays := shr64 (shl64 lastWeekdays (lastDay - 7)) (lastDay - 7)
  b ||| lastWeekdays

/-- `Expression.calculateActualDaysOfMonth` from `cron/cron.go`.  The two
conditional blocks are split out as `domDerivedDays` and
`dowDerivedDays`; both only OR bits into the accumulator, so the split
is value-preserving.  The location parameter is dropped: in the
fixed-offset model the civil calendar does not depend on it. -/
def calculateActualDaysOfMonth (e : Expression) (year : Int) (month : Nat) : Nat :=
  let lastDay := daysInMonth year month
  let thisMask := monthMask lastDay
  if e.daysOfMonth = daysMask ∧ e.daysOfWeek = weeksMask then thisMask
  else
    let a := if e.daysOfMonth ≠ daysMask then domDerivedDays e year month else 0
    let a := if e.daysOfWeek ≠ weeksMask then a ||| dowDerivedDays e year month else a
    a &&& thisMask

/-! ### The `Next` scanning cascade (`cron/cron.go`), with fuel

`nextMonthF` and `nextYearF` are mutually recursive in the source; they
consume one unit of fuel per call.  The finer levels
(`nextDayOfMonth`, `nextHour`, `nextMinute`, `nextSecond`) only chain
downward into `nextMonthF` and pass their fuel through unchanged. -/

/-- The mutually recursive pair `Expression.nextMonth` /
`Expression.nextYear`, merged into one fuel-indexed function so that the
recursion is structural on the fuel (`mode = false` is `nextMonth`,
`mode = true` is `nextYear`); `nextMonthF` and `nextYearF` below are the
two entry points. -/
def nextMYF : Nat → Bool → Expression → GoTime → Option GoTime
  | 0, _, _, _ => none
  | f + 1, false, e, t =>
    let i := matchField e.months monthsMask (t.month + 1)
    if i = notFountIdx then nextMYF f true e t
    else
      let adom := calculateActualDaysOfMonth e t.year i
      if adom = 0 then
        nextMYF f false e
          (goDate t.year i 1 (minValue e.hours) (minValue e.minutes) (minValue e.seconds) 0 t.loc)
      else
        some (goDate t.year i (minValue adom)
          (minValue e.hours) (minValue e.minutes) (minValue e.seconds) 0 t.loc)
  | f + 1, true, e, t =>
    let year := matchYear e (t.year + 1)
    if year = 0 then some zeroTime
    else
      let adom := calculateActualDaysOfMonth e year (minValue e.months)
      if adom = 0 then
        nextMYF f false e
          (goDate year (minValue e.months) 1
            (minValue e.hours) (minValue e.minutes) (minValue e.seconds) 0 t.loc)
      else
        some (goDate year (minValue e.months) (minValue adom)
          (minValue e.hours) (minValue e.minutes) (minValue e.seconds) 0 t.loc)

/-- `Expression.nextMonth`. -/
def nextMonthF (fuel : Nat) (e : Expression) (t : GoTime) : Option GoTime :=
  nextMYF fuel false e t

/-- `Expression.nextYear`. -/
def nextYearF (fuel : Nat) (e : Expression) (t : GoTime) : Option GoTime :=
  nextMYF fuel true e t

/-- `Expression.nextDayOfMonth`. -/
def nextDayOfMonthF (fuel : Nat) (e : Expression) (t : GoTime) (adom : Nat) : Option GoTime :=
  let i := matchField adom daysMask (t.day + 1)
  if i = notFountIdx then nextMonthF fuel e t
  else
    some (goDate t.year t.month i
      (minValue e.hours) (minValue e.minutes) (minValue e.seconds) 0 t.loc)

/-- `Expression.nextHour`. -/
def nextHourF (fuel : Nat) (e : Expression) (t : GoTime) (adom : Nat) : Option GoTime :=
  let i := matchField e.hours hoursMask (t.hour + 1)
  if i = notFountIdx then nextDayOfMonthF fuel e t adom
  else
    some (goDate t.year t.month t.day i (minValue e.minutes) (minValue e.seconds) 0 t.loc)

/-- `Expression.nextMinute`. -/
def nextMinuteF (fuel : Nat) (e : Expression) (t : GoTime) (adom : Nat) : Option GoTime :=
  let i := matchField e.minutes minutesMask (t.minute + 1)
  if i = notFountIdx then nextHourF fuel e t adom
  else
    some (goDate t.year t.month t.day t.hour i (minValue e.seconds) 0 t.loc)

/-- `Expression.nextSecond`. -/
def nextSecondF (fuel : Nat) (e : Expression) (t : GoTime) (adom : Nat) : Option GoTime :=
  let i := matchField e.seconds secondsMask (t.second + 1)
  if i = notFountIdx then nextMinuteF fuel e t adom
  else
    some (goDate t.year t.month t.day t.hour t.minute i 0 t.loc)

/-- `Expression.Next` from `cron/cron.go`: the entry point, matching each
component of `fromTime` top-down and dispatching to the `next*`
cascade on the first mismatch. -/
def nextF (fuel : Nat) (e : Expression) (t : GoTime) : Option GoTime :=
  if t.isZero then some t
  else
    let year := matchYear e t.year
    if year = 0 then some zeroTime
    else if t.year ≠ year then nextYearF fuel e t
    else
      let i := matchField e.months monthsMask t.month
      if i = notFountIdx then nextYearF fuel e t
      else if t.month ≠ i then nextMonthF fuel e t
      else
        let adom := calculateActualDaysOfMonth e t.year t.month
        if adom = 0 then nextMonthF fuel e t
        else
          let j := matchField adom daysMask t.day
          if j = notFountIdx then nextMonthF fuel e t
          else if t.day ≠ j then nextDayOfMonthF fuel e t adom
          else
            let k := matchField e.hours hoursMask t.hour
            if k = notFountIdx then nextDayOfMonthF fuel e t adom
            else if t.hour ≠ k then nextHourF fuel e t adom
            else
              let mi := matchField e.minutes minutesMask t.minute
              if mi = notFountIdx then nextHourF fuel e t adom
              else if t.minute ≠ mi then nextMinuteF fuel e t adom
              else
                let s := matchField e.seconds secondsMask t.second
                if s = notFountIdx then nextMinuteF fuel e t adom
                else nextSecondF fuel e t adom

/-! ### Well-formedness of parsed expressions

`cron.Parse` only ever stores field bits inside the corresponding legal
mask, stores at least one value for the second/minute/hour/month
fields, and fills the year words either with validated years
(1970–2099, bit indexes ≤ 129) or with the all-ones `allYears`
padding. -/

/-- Well-formedness of a parsed `Expression` (what `cron.Parse`
guarantees for every field on success). -/
def WF (e : Expression) : Prop :=
  e.seconds &&& secondsMask = e.seconds ∧ e.seconds ≠ 0 ∧
    e.minutes &&& minutesMask = e.minutes ∧ e.minutes ≠ 0 ∧
    e.hours &&& hoursMask = e.hours ∧ e.hours ≠ 0 ∧
    e.months &&& monthsMask = e.months ∧ e.months ≠ 0 ∧
    e.daysOfMonth &&& daysMask = e.daysOfMonth ∧
    e.workdaysOfMonth &&& daysMask = e.workdaysOfMonth ∧
    e.daysOfWeek &&& weeksMask = e.daysOfWeek ∧
    e.ithWeekdaysOfWeek &&& weeksMask = e.ithWeekdaysOfWeek ∧
    e.lastWeekdaysOfWeek &&& weeksMask = e.lastWeekdaysOfWeek ∧
    ((e.years0 = maxUint64 ∧ e.years1 = maxUint64 ∧ e.years2 = maxUint64) ∨
      (e.years0 < 2 ^ 64 ∧ e.years1 < 2 ^ 64 ∧
        e.years2 &&& 0xc000000000000000 = e.years2))

instance (e : Expression) : Decidable (WF e) := by
  unfold WF
  infer_instance

/-! ### Concrete expressions used as witnesses -/

/-- The parsed form of `"0 0 0 29 2 *"` (every February 29). -/
def exprFeb29 : Expression :=
  ⟨1 <<< 63, 1 <<< 63, 1 <<< 63, 1 <<< 34, 0, false, false, 1 <<< 61,
    weeksMask, 0, 0, maxUint64, maxUint64, maxUint64⟩

/-- The parsed form of `"0 0 0 14W * *"` (nearest weekday to the 14th). -/
def expr14W : Expression :=
  ⟨1 <<< 63, 1 <<< 63, 1 <<< 63, 0, 1 <<< 49, false, false, monthsMask,
    weeksMask, 0, 0, maxUint64, maxUint64, maxUint64⟩

/-- The parsed form of `"* * * * * *"` (every second). -/
def exprEverySecond : Expression :=
  ⟨secondsMask, minutesMask, hoursMask, daysMask, 0, false, false, monthsMask,
    weeksMask, 0, 0, maxUint64, maxUint64, maxUint64⟩

/-- The parsed form of `"0 * * * * * 1980"` (every minute of 1980). -/
def exprYear1980 : Expression :=
  ⟨1 <<< 63, minutesMask, hoursMask, daysMask, 0, false, false, monthsMask,
    weeksMask, 0, 0, 1 <<< 53, 0, 0⟩

/-! ### The field parser (`cron/parse.go`)

Go strings over ASCII are modelled as Lean `String`s;
`strings.IndexByte` returns the first index or `-1`, and Go slicing
`s[:i]` / `s[i+1:]` becomes take/drop on the character list.
`strconv.Atoi` is modelled as sign-plus-digits integer parsing
(`int64` overflow is not modelled: an overflowing literal fails Go's
parse and is rejected either way, as any step outside `[1, max-min]`
is). -/

/-- Go `strings.IndexByte`: first index of `c`, or `-1`. -/
def goIndexByte (s : String) (c : Char) : Int :=
  match s.toList.findIdx? (· == c) with
  | some i => (i : Int)
  | none => -1

/-- Go slice `s[:n]`. -/
def strTake (s : String) (n : Nat) : String := ⟨s.toList.take n⟩

/-- Go slice `s[n:]`. -/
def strDrop (s : String) (n : Nat) : String := ⟨s.toList.drop n⟩

/-- Digit run of `strconv.Atoi`. -/
def parseDigits : List Char → Nat → Option Nat
  | [], acc => some acc
  | c :: cs, acc =>
    if c.isDigit then parseDigits cs (acc * 10 + (c.toNat - 48)) else none

/-- Model of Go `strconv.Atoi` (see the section comment). -/
def goAtoi (s : String) : Option Int :=
  match s.toList with
  | [] => none
  | '+' :: cs =>
    match cs with
    | [] => none
    | _ => (parseDigits cs 0).map (fun n => (n : Int))
  | '-' :: cs =>
    match cs with
    | [] => none
    | _ => (parseDigits cs 0).map (fun n => -(n : Int))
  | cs => (parseDigits cs 0).map (fun n => (n : Int))

/-- The `fieldParser` record of `cron/parse.go`.  `populateTo` is the
per-field closure; `specEntryParser` handles the field-specific literal
entries (`?`, `L`, `nW`, `d#n`, …) and is absent for the numeric
fields. -/
structure FieldParser where
  name : String
  populateTo : Expression → Int → Int → Int → Expression
  min : Int
  max : Int
  atoi : String → Option Int
  specEntryParser : Option (Expression → String → (String → Option Int) → Option Expression)

/-- `fp.isValid(n)`: `n >= fp.min && n <= fp.max`. -/
def FieldParser.isValid (fp : FieldParser) (n : Int) : Bool :=
  decide (fp.min ≤ n ∧ n ≤ fp.max)

/-- The `for i := begin; i <= end; i += step` loop shared by every
`populateTo` closure, with fuel (`(end-begin)+1` iterations suffice for
`step ≥ 1`, the only validated case). -/
def populateLoop (upd : Expression → Int → Expression) :
    Nat → Int → Int → Int → Expression → Expression
  | 0, _, _, _, e => e
  | f + 1, i, endV, step, e =>
    if i ≤ endV then populateLoop upd f (i + step) endV step (upd e i) else e

/-- Runs a `populateTo` loop with sufficient fuel. -/
def runPopulate (upd : Expression → Int → Expression) (e : Expression)
    (b endV step : Int) : Expression :=
  populateLoop upd ((endV - b).toNat + 1) b endV step e

/-- The second field's parser (`expr.seconds |= 1 << (63 - i)`,
range 0–59, numeric `atoi`, no special entries). -/
def secondFieldParser : FieldParser where
  name := "second"
  populateTo := fun e b endV step =>
    runPopulate
      (fun e i => { e with seconds := e.seconds ||| shl64 1 (63 - i.toNat) }) e b endV step
  min := 0
  max := 59
  atoi := goAtoi
  specEntryParser := none

/-- `fieldParser.parseStep` from `cron/parse.go` (`none` is a parse
failure; the `entry[:idx]` slice with `idx = -1` panics in Go and is
modelled as failure). -/
def parseStep (fp : FieldParser) (e : Expression) (entry : String) (step : Int) :
    Option Expression :=
  if entry = "*" then some (fp.populateTo e fp.min fp.max step)
  else
    match fp.atoi entry with
    | some n =>
      if fp.isValid n then some (fp.populateTo e n fp.max step) else none
    | none =>
      let idx := goIndexByte entry '-'
      if idx < 0 then none
      else
        match fp.atoi (strTake entry idx.toNat) with
        | some b =>
          if fp.isValid b then
            match fp.atoi (strDrop entry (idx.toNat + 1)) with
            | some endV => if fp.isValid endV then some (fp.populateTo e b endV step) else none
            | none => none
          else none
        | none => none

/-- `fieldParser.parseEntry` from `cron/parse.go`. -/
def parseEntry (fp : FieldParser) (e : Expression) (entry : String) : Option Expression :=
  if entry = "*" then some (fp.populateTo e fp.min fp.max 1)
  else
    match fp.atoi entry with
    | some n =>
      if fp.isValid n then some (fp.populateTo e n n 1) else none
    | none =>
      let idx := goIndexByte entry '/'
      if idx ≠ -1 then
        match fp.atoi (strDrop entry (idx.toNat + 1)) with
        | some step =>
          if step < 1 ∨ fp.max - fp.min < step then none
          else parseStep fp e (strTake entry idx.toNat) step
        | none => none
      else
        let idx2 := goIndexByte entry '-'
        if idx2 ≠ -1 then parseStep fp e entry 1
        else
          match fp.specEntryParser with
          | some sp => sp e entry fp.atoi
          | none => none

/-- The all-zero expression (fields before parsing populates them). -/
def emptyExpression : Expression :=
  ⟨0, 0, 0, 0, 0, false, false, 0, 0, 0, 0, 0, 0, 0⟩

/-! ### The job queue and `removeJob` (claim C9)

`Scheduler.removeJob` and `ManagedJob.Cancel` are under `src/`; the
`jobQueue` heap implementation itself is not (only its callers are).
Modelled from the spec: the job queue is a min-heap (slice) keyed on
next fire time; every swap rewrites both swapped jobs' `index` fields,
and a popped or removed job's `index` field is set to `-1` and its slot
cleared.  Jobs are identified by an id; a state carries the heap slice
of ids, each job's `index` field and (via `nxt`) its next fire time.
The `down`/`up` helpers are Go's `container/heap` sift functions. -/

/-- The dispatch core's queue state: the heap slice and the jobs'
`index` fields. -/
structure JQState where
  q : List Nat
  idx : Nat → Int

/-- `jobQueue.Less(a, b)`: compare next fire times of slots `a`, `b`. -/
def jqLess (nxt : Nat → Int) (s : JQState) (a b : Nat) : Bool :=
  match s.q[a]?, s.q[b]? with
  | some x, some y => decide (nxt x < nxt y)
  | _, _ => false

/-- `jobQueue.Swap(i, j)`: swap the slots and rewrite both `index`
fields. -/
def jqSwap (s : JQState) (i j : Nat) : JQState :=
  match s.q[i]?, s.q[j]? with
  | some a, some b =>
    { q := (s.q.set i b).set j a,
      idx := fun k => if k = a then (j : Int) else if k = b then (i : Int) else s.idx k }
  | _, _ => s

/-- `container/heap`'s `down(h, i0, n)` loop, with fuel; returns the
final position of the sifted element. -/
def jqDownLoop (nxt : Nat → Int) : Nat → JQState → Nat → Nat → JQState × Nat
  | 0, s, i, _ => (s, i)
  | f + 1, s, i, n =>
    let j1 := 2 * i + 1
    if n ≤ j1 then (s, i)
    else
      let j := if j1 + 1 < n ∧ jqLess nxt s (j1 + 1) j1 then j1 + 1 else j1
      if ¬ jqLess nxt s j i then (s, i)
      else jqDownLoop nxt f (jqSwap s i j) j n

/-- `container/heap`'s `down`, reporting whether the element moved. -/
def jqDown (nxt : Nat → Int) (s : JQState) (i0 n : Nat) : JQState × Bool :=
  let p := jqDownLoop nxt n s i0 n
  (p.1, decide (i0 < p.2))

/-- `container/heap`'s `up(h, j)` loop, with fuel. -/
def jqUpLoop (nxt : Nat → Int) : Nat → JQState → Nat → JQState
  | 0, s, _ => s
  | f + 1, s, j =>
    let i := (j - 1) / 2
    if i = j ∨ ¬ jqLess nxt s j i then s
    else jqUpLoop nxt f (jqSwap s i j) i

/-- `container/heap`'s `up`. -/
def jqUp (nxt : Nat → Int) (s : JQState) (j : Nat) : JQState :=
  jqUpLoop nxt (j + 1) s j

/-- `jobQueue.Pop` (modelled from the spec): eject the last slot and set
the ejected job's `index` to `-1`. -/
def jqPop (s : JQState) : JQState :=
  match s.q.getLast? with
  | some a => { q := s.q.dropLast, idx := fun k => if k = a then -1 else s.idx k }
  | none => s

/-- `container/heap.Remove(h, i)`:
`n := Len-1; if n != i { Swap(i, n); if !down(i, n) { up(i) } }; Pop()`. -/
def heapRemove (nxt : Nat → Int) (s : JQState) (i : Nat) : JQState :=
  let n := s.q.length - 1
  if i ≠ n then
    let s1 := jqSwap s i n
    let p := jqDown nxt s1 i n
    let s2 := if p.2 then p.1 else jqUp nxt p.1 i
    jqPop s2
  else jqPop s

/-- `Scheduler.removeJob` from `scheduler.go`:
`if removeJ.index < 0 || removeJ.index >= len(*jobs) { return };
 if removeJ == (*jobs)[removeJ.index] { heap.Remove(jobs, removeJ.index) }`. -/
def removeJob (nxt : Nat → Int) (s : JQState) (j : Nat) : JQState :=
  if s.idx j < 0 ∨ (s.q.length : Int) ≤ s.idx j then s
  else if s.q[(s.idx j).toNat]? = some j then heapRemove nxt s (s.idx j).toNat
  else s

/-! ### Bit-level toolkit -/

/-- The highest bit of a non-zero word is set: `testBit x (size x - 1)`. -/
theorem testBit_size_pred {x : Nat} (hx : x ≠ 0) : x.testBit (x.size - 1) = true := by
  have hpos : 0 < x := Nat.pos_of_ne_zero hx
  have hs : 0 < x.size := Nat.size_pos.mpr hpos
  have hlow : 2 ^ (x.size - 1) ≤ x := by
    by_contra hc
    push_neg at hc
    have := Nat.size_le.mpr hc
    omega
  have hhigh : x < 2 ^ x.size := Nat.lt_size_self x
  have hdiv : x / 2 ^ (x.size - 1) = 1 := by
    apply Nat.div_eq_of_lt_le
    · simpa using hlow
    · have : 2 ^ x.size = 2 * 2 ^ (x.size - 1) := by
        rw [← pow_succ']
        congr 1
        omega
      omega
  rw [Nat.testBit_to_div_mod, hdiv]
  decide

/-- A set bit lies below the size. -/
theorem testBit_lt_size {x k : Nat} (h : x.testBit k = true) : k < x.size := by
  have h1 : 2 ^ k ≤ x := Nat.testBit_implies_ge h
  have h2 : x < 2 ^ x.size := Nat.lt_size_self x
  have := lt_of_le_of_lt h1 h2
  exact (Nat.pow_lt_pow_iff_right (by norm_num)).mp this

/-- `Nat.size` steps down through halving. -/
theorem size_eq_size_div_two {n : Nat} (hn : n ≠ 0) : n.size = (n / 2).size + 1 := by
  have h1 : 0 < n.size := Nat.size_pos.mpr (Nat.pos_of_ne_zero hn)
  apply le_antisymm
  · apply Nat.size_le.mpr
    have h2 : n / 2 < 2 ^ (n / 2).size := Nat.lt_size_self _
    have h3 : n ≤ 2 * (n / 2) + 1 := by omega
    calc n ≤ 2 * (n / 2) + 1 := h3
      _ < 2 * 2 ^ (n / 2).size := by omega
      _ = 2 ^ ((n / 2).size + 1) := by rw [pow_succ']
  · have h2 : n < 2 ^ n.size := Nat.lt_size_self n
    have h3 : n / 2 < 2 ^ (n.size - 1) := by
      have h4 : 2 ^ n.size = 2 * 2 ^ (n.size - 1) := by
        rw [← pow_succ']
        congr 1
        omega
      omega
    have := Nat.size_le.mpr h3
    omega

/-- The fuelled `bits.Len64` agrees with `Nat.size` below the fuel. -/
theorem lenAux_eq_size : ∀ f n : Nat, n < 2 ^ f → lenAux f n = n.size := by
  intro f
  induction f with
  | zero =>
    intro n h
    have hn : n = 0 := by simpa using h
    subst hn
    simp [lenAux, Nat.size_zero]
  | succ f ih =>
    intro n h
    by_cases hn : n = 0
    · subst hn
      simp [lenAux, Nat.size_zero]
    · rw [lenAux, if_neg hn]
      have hdiv : n / 2 < 2 ^ f := by
        have h2 : n < 2 * 2 ^ f := by
          calc n < 2 ^ (f + 1) := h
            _ = 2 * 2 ^ f := by rw [pow_succ']
        omega
      rw [ih _ hdiv, ← size_eq_size_div_two hn]

/-- `len64` is `Nat.size` on 64-bit words. -/
theorem len64_eq_size {n : Nat} (h : n < 2 ^ 64) : len64 n = n.size :=
  lenAux_eq_size 64 n h

/-- Bits of the scan window `v & ((mask << i) >> i)`. -/
theorem window_testBit (v m i b : Nat) (hi : i ≤ 64) :
    (v &&& shr64 (shl64 m i) i).testBit b =
      (v.testBit b && (m.testBit b && decide (b < 64 - i))) := by
  rw [Nat.testBit_and]
  congr 1
  show (((m <<< i) % 2 ^ 64) >>> i).testBit b = _
  rw [Nat.testBit_shiftRight, Nat.testBit_mod_two_pow, Nat.testBit_shiftLeft]
  have h1 : (decide (i + b ≥ i)) = true := by simp
  rw [h1]
  simp only [Nat.add_sub_cancel_left, Bool.true_and]
  by_cases hb : b < 64 - i
  · have : i + b < 64 := by omega
    simp [this, hb, Bool.and_comm]
  · have : ¬(i + b < 64) := by omega
    simp [this, hb]

/-- The scan window is bounded by `2 ^ (64 - i)`. -/
theorem window_lt (v m i : Nat) (hi : i ≤ 64) :
    v &&& shr64 (shl64 m i) i < 2 ^ (64 - i) := by
  apply lt_of_le_of_lt Nat.and_le_right
  show ((m <<< i) % 2 ^ 64) >>> i < 2 ^ (64 - i)
  rw [Nat.shiftRight_eq_div_pow]
  apply Nat.div_lt_of_lt_mul
  calc (m <<< i) % 2 ^ 64 < 2 ^ 64 := Nat.mod_lt _ (by positivity)
    _ = 2 ^ i * 2 ^ (64 - i) := by rw [← pow_add]; congr 1; omega

/-- The scan window is a 64-bit word for every `i`. -/
theorem window_lt64 (v m i : Nat) : v &&& shr64 (shl64 m i) i < 2 ^ 64 := by
  apply lt_of_le_of_lt Nat.and_le_right
  show ((m <<< i) % 2 ^ 64) >>> i < 2 ^ 64
  rw [Nat.shiftRight_eq_div_pow]
  apply lt_of_le_of_lt (Nat.div_le_self _ _)
  exact Nat.mod_lt _ (by positivity)

/-- `matchField` in terms of `Nat.size`. -/
theorem matchField_eq_size (v m i : Nat) :
    matchField v m i = 64 - (v &&& shr64 (shl64 m i) i).size := by
  unfold matchField
  rw [len64_eq_size (window_lt64 v m i)]

/-- `minValue` in terms of `Nat.size`. -/
theorem minValue_eq_size {v : Nat} (h : v < 2 ^ 64) : minValue v = 64 - v.size := by
  unfold minValue
  rw [len64_eq_size h]

/-- `matchField` either reports no match or returns the least legal value
`≥ i` (MSB-origin) present in both `v` and the mask.  Shared workhorse of
the scanning lemmas. -/
theorem matchField_cases (v m i : Nat) (hi : i ≤ 64) :
    matchField v m i = notFountIdx ∨
      (i ≤ matchField v m i ∧ matchField v m i ≤ 63 ∧
        v.testBit (63 - matchField v m i) = true ∧
        m.testBit (63 - matchField v m i) = true) := by
  set x := v &&& shr64 (shl64 m i) i with hxdef
  have hxlt : x < 2 ^ (64 - i) := window_lt v m i hi
  by_cases hx : x = 0
  · left
    rw [matchField_eq_size, ← hxdef, hx]
    simp [Nat.size_zero, notFountIdx]
  · right
    have hs1 : 1 ≤ x.size := Nat.size_pos.mpr (Nat.pos_of_ne_zero hx)
    have hsle : x.size ≤ 64 - i := Nat.size_le.mpr hxlt
    have hr : matchField v m i = 64 - x.size := by
      rw [matchField_eq_size, ← hxdef]
    have hridx : 63 - matchField v m i = x.size - 1 := by omega
    have hbit : x.testBit (x.size - 1) = true := testBit_size_pred hx
    rw [hxdef, window_testBit v m i _ hi] at hbit
    refine ⟨by omega, by omega, ?_, ?_⟩
    · rw [hridx]
      exact (Bool.and_eq_true_iff.mp hbit).1
    · rw [hridx]
      exact (Bool.and_eq_true_iff.mp (Bool.and_eq_true_iff.mp hbit).2).1

/-- `matchField` never returns a value below the start index `i`. -/
theorem matchField_ge (v m i : Nat) (hi : i ≤ 64) : i ≤ matchField v m i := by
  rcases matchField_cases v m i hi with h | h
  · rw [h]
    show i ≤ 64
    omega
  · exact h.1

/-- Minimality of `matchField`: no legal value in `[i, matchField)` is
present in both `v` and the mask. -/
theorem matchField_min (v m i : Nat) (hi : i ≤ 64) :
    ∀ j, i ≤ j → j < matchField v m i → j ≤ 63 →
      ¬(v.testBit (63 - j) = true ∧ m.testBit (63 - j) = true) := by
  intro j hij hjr hj63 ⟨hvb, hmb⟩
  set x := v &&& shr64 (shl64 m i) i with hxdef
  have hb : 63 - j < 64 - i := by omega
  have hxb : x.testBit (63 - j) = true := by
    rw [hxdef, window_testBit v m i _ hi, hvb, hmb]
    simp [hb]
  have hlt := testBit_lt_size hxb
  have hr : matchField v m i = 64 - x.size := by
    rw [matchField_eq_size, ← hxdef]
  omega

/-- Bits are preserved under a bit-subset equation `v &&& m = v`. -/
theorem testBit_of_and_eq {v m : Nat} (h : v &&& m = v) {b : Nat}
    (hb : v.testBit b = true) : m.testBit b = true := by
  have hcongr : (v &&& m).testBit b = v.testBit b := by rw [h]
  rw [Nat.testBit_and, hb] at hcongr
  simpa using hcongr

/-- `minValue` of a non-zero word inside a 64-bit mask is a set bit
position of both the word and its mask. -/
theorem minValue_mem {v m : Nat} (hsub : v &&& m = v) (hv : v ≠ 0) (hm : m < 2 ^ 64) :
    minValue v ≤ 63 ∧ v.testBit (63 - minValue v) = true ∧
      m.testBit (63 - minValue v) = true := by
  have hvle : v ≤ m := by
    conv_lhs => rw [← hsub]
    exact Nat.and_le_right
  have hvlt : v < 2 ^ 64 := lt_of_le_of_lt hvle hm
  have hs1 : 1 ≤ v.size := Nat.size_pos.mpr (Nat.pos_of_ne_zero hv)
  have hsle : v.size ≤ 64 := Nat.size_le.mpr hvlt
  have hmv : minValue v = 64 - v.size := minValue_eq_size hvlt
  have hidx : 63 - minValue v = v.size - 1 := by omega
  have hbit := testBit_size_pred hv
  refine ⟨by omega, ?_, ?_⟩
  · rw [hidx]; exact hbit
  · rw [hidx]; exact testBit_of_and_eq hsub hbit

/-! ### Bit layout of the field masks -/

/-- Transfer a bounded `testBit` table of a constant to all indexes. -/
theorem testBit_const_lo_hi {x lo hi : Nat} (hhi : hi < 64)
    (h : ∀ b, b < 64 → (x.testBit b = decide (lo ≤ b ∧ b ≤ hi)))
    (hx : x < 2 ^ 64) :
    ∀ b, x.testBit b = decide (lo ≤ b ∧ b ≤ hi) := by
  intro b
  by_cases hb : b < 64
  · exact h b hb
  · have hxb : x < 2 ^ b := lt_of_lt_of_le hx (Nat.pow_le_pow_right (by norm_num) (by omega))
    rw [Nat.testBit_lt_two_pow hxb]
    symm
    simp only [decide_eq_false_iff_not]
    omega

/-- `monthsMask` has bits exactly at indexes 51–62 (values 1–12). -/
theorem monthsMask_testBit : ∀ b, monthsMask.testBit b = decide (51 ≤ b ∧ b ≤ 62) :=
  testBit_const_lo_hi (by norm_num) (by decide) (by norm_num [monthsMask])

/-- `hoursMask` has bits exactly at indexes 40–63 (values 0–23). -/
theorem hoursMask_testBit : ∀ b, hoursMask.testBit b = decide (40 ≤ b ∧ b ≤ 63) :=
  testBit_const_lo_hi (by norm_num) (by decide) (by norm_num [hoursMask])

/-- `daysMask` has bits exactly at indexes 32–62 (values 1–31). -/
theorem daysMask_testBit : ∀ b, daysMask.testBit b = decide (32 ≤ b ∧ b ≤ 62) :=
  testBit_const_lo_hi (by norm_num) (by decide) (by norm_num [daysMask])

/-- `secondsMask` has bits exactly at indexes 4–63 (values 0–59). -/
theorem secondsMask_testBit : ∀ b, secondsMask.testBit b = decide (4 ≤ b ∧ b ≤ 63) :=
  testBit_const_lo_hi (by norm_num) (by decide) (by norm_num [secondsMask])

/-- `minutesMask` has bits exactly at indexes 4–63 (values 0–59). -/
theorem minutesMask_testBit : ∀ b, minutesMask.testBit b = decide (4 ≤ b ∧ b ≤ 63) :=
  testBit_const_lo_hi (by norm_num) (by decide) (by norm_num [minutesMask])

/-- `weeksMask` has bits exactly at indexes 28–62 (values 1–35). -/
theorem weeksMask_testBit : ∀ b, weeksMask.testBit b = decide (28 ≤ b ∧ b ≤ 62) :=
  testBit_const_lo_hi (by norm_num) (by decide) (by norm_num [weeksMask])

/-- C2 — counter-evidence.  `Union(L, R)` where `L` fires at instant 1 and
`R` is terminal: the claim (and the spec's terminal-aware minimum) demands
`Union.Next(0) = 1`, the non-terminal side, but `union.Next` returns the
terminal time because `t1.Before(t2)` is false whenever `t2` is the zero
time and `t1` is a real (post-zero) time, so the `return t2` branch is
taken.  This also contradicts the repository's own README composite
example, whose documented output keeps firing from the `Minus` side after
the finite `workday` side is exhausted. -/
theorem union_next_terminal_right_drops_left :
    unionNext schedFireAt1 schedNever 0 = 0 ∧
      schedFireAt1 0 = 1 ∧ schedNever 0 = 0 ∧ (1 : Int) ≠ 0 := by
  refine ⟨?_, rfl, rfl, by decide⟩
  simp [unionNext, schedFireAt1, schedNever]

/-- C3 — counter-evidence.  `Intersect(L, R)` where `L` fires at instant 1
and `R` is terminal at every instant: the intersection is empty, so the
claim demands a terminal result, but `intersect.Next` returns `t1 = 1`
(the `return t1` branch is taken as soon as either side is terminal,
even when the terminal side is `t2`).  The result `1` is not terminal and
is not a time at which `R` fires. -/
theorem intersect_next_terminal_right_returns_left :
    intersectNext 1 schedFireAt1 schedNever 0 = some 1 ∧
      (∀ t : Int, schedNever t = 0) ∧ ((1 : Int) ≠ 0) := by
  refine ⟨?_, fun _ => rfl, by decide⟩
  simp [intersectNext, intersectLoop, schedFireAt1, schedNever]

/-- The catch-up loop of `minus.Next` against `schedFireAt3` never
finishes once `t1 = 5` and `t2 ∈ {0, 3}`: `r.Next` keeps alternating
between `3` (from `0`) and `0` (from `3`), both below `t1`. -/
theorem minusCatchUp_fireAt3_diverges :
    ∀ fuel : Nat, ∀ t2 : Int, t2 = 0 ∨ t2 = 3 →
      minusCatchUp fuel schedFireAt3 5 t2 = none := by
  intro fuel
  induction fuel with
  | zero => intro t2 _; rfl
  | succ n ih =>
    intro t2 h
    rcases h with h | h <;> subst h
    · show minusCatchUp (n + 1) schedFireAt3 5 0 = none
      rw [minusCatchUp]
      simp only [schedFireAt3]
      norm_num
      exact ih 3 (Or.inr rfl)
    · show minusCatchUp (n + 1) schedFireAt3 5 3 = none
      rw [minusCatchUp]
      simp only [schedFireAt3]
      norm_num
      exact ih 0 (Or.inl rfl)

/-- C4 — counter-evidence.  `L` fires once at instant 5, `R` fires once at
instant 3; both are strictly increasing until terminal.  From `t = 0`,
`minus.Next` reaches `t1 = 5 > t2 = 3` and enters the inner catch-up loop
`for t1.After(t2) { t2 = r.Next(t2) }`, which never tests `t2.IsZero()`:
`t2` alternates `3, 0, 3, 0, …` forever, so `Minus(L, R).Next(0)` never
returns for any amount of fuel, although the claim demands termination
for every such pair of schedules (the intended answer is `5`). -/
theorem minus_next_diverges_on_terminal_right :
    StrictlyIncreasingUntilTerminal schedFireAt5 ∧
      StrictlyIncreasingUntilTerminal schedFireAt3 ∧
      ∀ fuel : Nat, minusNext fuel schedFireAt5 schedFireAt3 0 = none := by
  refine ⟨?_, ?_, ?_⟩
  · intro t
    by_cases h : t < 5 <;> simp [schedFireAt5, h]
  · intro t
    by_cases h : t < 3 <;> simp [schedFireAt3, h]
  · intro fuel
    show minusLoop fuel schedFireAt5 schedFireAt3
      (schedFireAt5 0) (schedFireAt3 0) = none
    have h5 : schedFireAt5 0 = 5 := rfl
    have h3 : schedFireAt3 0 = 3 := rfl
    rw [h5, h3]
    cases fuel with
    | zero => rfl
    | succ n =>
      rw [minusLoop]
      norm_num
      rw [minusCatchUp_fireAt3_diverges n 3 (Or.inr rfl)]

/-- Sanity check (the repository's `ExampleMustParse` test): from
2013-08-31, `"0 0 0 29 2 *"` fires next on 2016-02-29. -/
example : nextF 100 exprFeb29 ⟨2013, 8, 31, 0, 0, 0, 0, 0⟩ =
    some ⟨2016, 2, 29, 0, 0, 0, 0, 0⟩ := by decide

/-- Sanity check (the cron README): from 2013-03-31, `"0 0 0 14W * *"`
fires next on Monday 2013-04-15. -/
example : nextF 100 expr14W ⟨2013, 3, 31, 0, 0, 0, 0, 0⟩ =
    some ⟨2013, 4, 15, 0, 0, 0, 0, 0⟩ := by decide

/-- Sanity check (the cron README): from 2013-08-31, `"0 * * * * * 1980"`
is exhausted: the year scan passes 2099 and the result is terminal. -/
example : nextF 100 exprYear1980 ⟨2013, 8, 31, 0, 0, 0, 0, 0⟩ =
    some zeroTime := by decide

/-- C6.  For every word `v`, mask `m` and index `0 ≤ i ≤ 63`,
`matchField v m i` either returns the sentinel `notFountIdx = 64` and no
legal value `≥ i` is present in `v` under the mask, or it returns the
smallest value `j ≥ i` (MSB origin, bit `63 - j`) present in both `v`
and the mask — that is, the MSB-origin index of the highest set bit of
`v & ((m << i) >> i)`, which is `matchField`'s definition. -/
theorem matchField_returns_next_legal_value (v m i : Nat) (hi : i ≤ 63) :
    (matchField v m i = notFountIdx ∧
        ∀ j, i ≤ j → j ≤ 63 →
          ¬(v.testBit (63 - j) = true ∧ m.testBit (63 - j) = true)) ∨
      (i ≤ matchField v m i ∧ matchField v m i ≤ 63 ∧
        v.testBit (63 - matchField v m i) = true ∧
        m.testBit (63 - matchField v m i) = true ∧
        ∀ j, i ≤ j → j < matchField v m i →
          ¬(v.testBit (63 - j) = true ∧ m.testBit (63 - j) = true)) := by
  rcases matchField_cases v m i (by omega) with h | h
  · left
    refine ⟨h, fun j hij hj63 => ?_⟩
    exact matchField_min v m i (by omega) j hij (by rw [h]; show j < 64; omega) hj63
  · right
    refine ⟨h.1, h.2.1, h.2.2.1, h.2.2.2, fun j hij hjr => ?_⟩
    exact matchField_min v m i (by omega) j hij hjr (by omega)

/-- C6 witness: `matchField` applied at `v = startBit` (value 0 present),
`m = maxUint64`, `i = 0` returns value `0`, satisfying the second
disjunct of the characterisation. -/
theorem matchField_returns_next_legal_value_witness :
    (matchField startBit maxUint64 0 = notFountIdx ∧
        ∀ j, 0 ≤ j → j ≤ 63 →
          ¬(startBit.testBit (63 - j) = true ∧ maxUint64.testBit (63 - j) = true)) ∨
      (0 ≤ matchField startBit maxUint64 0 ∧ matchField startBit maxUint64 0 ≤ 63 ∧
        startBit.testBit (63 - matchField startBit maxUint64 0) = true ∧
        maxUint64.testBit (63 - matchField startBit maxUint64 0) = true ∧
        ∀ j, 0 ≤ j → j < matchField startBit maxUint64 0 →
          ¬(startBit.testBit (63 - j) = true ∧ maxUint64.testBit (63 - j) = true)) :=
  matchField_returns_next_legal_value startBit maxUint64 0 (by decide)

/-! ### Bounds for the year scan -/

/-- `matchField` with a start index past the word width finds nothing. -/
theorem matchField_high (v m i : Nat) (h : 64 ≤ i) : matchField v m i = notFountIdx := by
  have hshl : shl64 m i = 0 := by
    unfold shl64
    rw [Nat.shiftLeft_eq]
    have hsplit : m * 2 ^ i = m * 2 ^ (i - 64) * 2 ^ 64 := by
      have hi64 : i - 64 + 64 = i := by omega
      rw [mul_assoc, ← pow_add, hi64]
    rw [hsplit, Nat.mul_mod_left]
  unfold matchField shr64
  rw [hshl]
  simp [Nat.zero_shiftRight, len64, lenAux, notFountIdx]

/-- Any non-zero result of the `matchYear` word loop lies in
`[i·64 + bit + 1970, 2161]` (the loop only visits words `i < 3`). -/
theorem matchYearLoop_bounds (e : Expression) : ∀ f i bit : Nat, bit ≤ 63 →
    matchYearLoop e f i bit = 0 ∨
      (((i * 64 + bit + 1970 : Nat) : Int) ≤ matchYearLoop e f i bit ∧
        1970 ≤ matchYearLoop e f i bit ∧ matchYearLoop e f i bit ≤ 2161) := by
  intro f
  induction f with
  | zero =>
    intro i bit _
    left
    rfl
  | succ f ih =>
    intro i bit hbit
    rw [matchYearLoop]
    by_cases hi : i < 3
    · rw [if_pos hi]
      by_cases hfound : matchField (e.yearsWord i) maxUint64 bit ≠ notFountIdx
      · rw [if_pos hfound]
        right
        have hge : bit ≤ matchField (e.yearsWord i) maxUint64 bit :=
          matchField_ge _ _ _ (by omega)
        have hle : matchField (e.yearsWord i) maxUint64 bit ≤ 63 := by
          rcases matchField_cases (e.yearsWord i) maxUint64 bit (by omega) with h | h
          · exact absurd h hfound
          · exact h.2.1
        have hshift : (i <<< 6 : Nat) = i * 64 := by
          rw [Nat.shiftLeft_eq]
        refine ⟨?_, ?_, ?_⟩ <;> (push_cast [hshift]; omega)
      · rw [if_neg hfound]
        rcases ih (i + 1) 0 (by omega) with h0 | h0
        · left
          exact h0
        · right
          refine ⟨?_, h0.2.1, h0.2.2⟩
          have h1 := h0.1
          have hcast : (((i + 1) * 64 + 0 + 1970 : Nat) : Int) =
              ((i * 64 + 64 + 1970 : Nat) : Int) := by push_cast; ring
          rw [hcast] at h1
          calc ((i * 64 + bit + 1970 : Nat) : Int) ≤ ((i * 64 + 64 + 1970 : Nat) : Int) := by
                push_cast
                omega
            _ ≤ matchYearLoop e f (i + 1) 0 := h1
    · rw [if_neg hi]
      left
      rfl

/-- Any non-zero result of `matchYear e y` lies in `[max(y, 1970), 2161]`. -/
theorem matchYear_bounds (e : Expression) (y : Int) :
    matchYear e y = 0 ∨
      (1970 ≤ matchYear e y ∧ matchYear e y ≤ 2161 ∧ y ≤ matchYear e y) := by
  by_cases hy : 2099 < y
  · left
    unfold matchYear
    rw [if_pos hy]
  · have hexp : matchYear e y =
        matchYearLoop e 3 (((if y < 1970 then (1970 : Int) else y) - 1970).toNat >>> 6)
          (((if y < 1970 then (1970 : Int) else y) - 1970).toNat &&& 63) := by
      unfold matchYear
      rw [if_neg hy]
    set y2 := if y < 1970 then (1970 : Int) else y with hy2
    have hy2b : 1970 ≤ y2 ∧ y ≤ y2 ∧ y2 ≤ 2099 := by
      rw [hy2]
      split <;> omega
    set idx := (y2 - 1970).toNat with hidx
    have hidxle : idx ≤ 129 := by omega
    have hdiv : idx >>> 6 = idx / 64 := by
      simpa using Nat.shiftRight_eq_div_pow idx 6
    have hand : idx &&& 63 = idx % 64 := by
      simpa using Nat.and_pow_two_sub_one_eq_mod idx 6
    rcases matchYearLoop_bounds e 3 (idx >>> 6) (idx &&& 63) (by rw [hand]; omega) with h | h
    · left
      rw [hexp]
      exact h
    · right
      rw [hexp]
      refine ⟨h.2.1, h.2.2, ?_⟩
      have h1 := h.1
      have heq : ((idx >>> 6) * 64 + (idx &&& 63) + 1970 : Nat) = idx + 1970 := by
        rw [hdiv, hand]
        omega
      rw [heq] at h1
      have : ((idx + 1970 : Nat) : Int) = y2 := by push_cast; omega
      omega

/-! ### Value ranges delivered by the masks -/

/-- `matchField` against a contiguous mask returns a value in the mask's
value range, at or after the start index. -/
theorem matchField_value_range {m lo hiB : Nat}
    (hmask : ∀ b, m.testBit b = decide (lo ≤ b ∧ b ≤ hiB))
    (v i : Nat) (hi64 : i ≤ 64) (hne : matchField v m i ≠ notFountIdx) :
    i ≤ matchField v m i ∧ 63 - hiB ≤ matchField v m i ∧
      matchField v m i ≤ 63 - lo ∧ matchField v m i ≤ 63 ∧
      v.testBit (63 - matchField v m i) = true := by
  rcases matchField_cases v m i hi64 with h | h
  · exact absurd h hne
  · obtain ⟨h1, h2, h3, h4⟩ := h
    rw [hmask] at h4
    simp only [decide_eq_true_eq] at h4
    exact ⟨h1, by omega, by omega, h2, h3⟩

/-- `minValue` of a non-empty field inside a contiguous mask lies in the
mask's value range. -/
theorem minValue_value_range {m lo hiB : Nat}
    (hmask : ∀ b, m.testBit b = decide (lo ≤ b ∧ b ≤ hiB))
    (hm : m < 2 ^ 64) {v : Nat} (hsub : v &&& m = v) (hv : v ≠ 0) :
    63 - hiB ≤ minValue v ∧ minValue v ≤ 63 - lo ∧
      v.testBit (63 - minValue v) = true := by
  obtain ⟨h1, h2, h3⟩ := minValue_mem hsub hv hm
  rw [hmask] at h3
  simp only [decide_eq_true_eq] at h3
  exact ⟨by omega, by omega, h2⟩

/-- A time whose year is not 1 is not the zero time. -/
theorem isZero_false_of_year {t : GoTime} (h : t.year ≠ 1) : t.isZero = false := by
  simp only [GoTime.isZero, decide_eq_false_iff_not]
  intro hc
  exact h hc.1

/-- The zero time is terminal. -/
theorem zeroTime_isZero : zeroTime.isZero = true := rfl

/-! ### The scan only moves forward (claim C1 groundwork) -/

/-- Each step of the month/year scan either returns a terminal time, or
moves to a strictly later year, or (in month mode) stays in the year and
moves to a strictly later month. -/
theorem nextMYF_increases (e : Expression) :
    ∀ fuel : Nat, ∀ mode : Bool, ∀ t r : GoTime, nextMYF fuel mode e t = some r →
      r.isZero = true ∨ t.year < r.year ∨
        (mode = false ∧ r.year = t.year ∧ t.month < r.month) := by
  intro fuel
  induction fuel with
  | zero =>
    intro mode t r h
    exact absurd h (by cases mode <;> simp [nextMYF])
  | succ f ih =>
    intro mode t r h
    cases mode with
    | false =>
      simp only [nextMYF] at h
      by_cases hi : matchField e.months monthsMask (t.month + 1) = notFountIdx
      · rw [if_pos hi] at h
        rcases ih true t r h with h1 | h1 | h1
        · exact Or.inl h1
        · exact Or.inr (Or.inl h1)
        · exact absurd h1.1 (by simp)
      · rw [if_neg hi] at h
        have hmonth : t.month + 1 ≤ matchField e.months monthsMask (t.month + 1) ∧
            matchField e.months monthsMask (t.month + 1) ≤ 12 := by
          by_cases hm : t.month + 1 ≤ 64
          · obtain ⟨a, b, c, d, evb⟩ :=
              matchField_value_range monthsMask_testBit e.months (t.month + 1) hm hi
            exact ⟨a, by omega⟩
          · exact absurd (matchField_high _ _ _ (by omega)) hi
        by_cases hadom : calculateActualDaysOfMonth e t.year
            (matchField e.months monthsMask (t.month + 1)) = 0
        · rw [if_pos hadom] at h
          rcases ih false _ r h with h1 | h1 | h1
          · exact Or.inl h1
          · exact Or.inr (Or.inl h1)
          · right
            right
            obtain ⟨_, hyear, hmon⟩ := h1
            exact ⟨rfl, hyear, by
              have : (goDate t.year (matchField e.months monthsMask (t.month + 1)) 1
                  (minValue e.hours) (minValue e.minutes) (minValue e.seconds) 0 t.loc).month =
                  matchField e.months monthsMask (t.month + 1) := rfl
              omega⟩
        · rw [if_neg hadom] at h
          simp only [Option.some.injEq] at h
          subst h
          right
          right
          exact ⟨rfl, rfl, by
            show t.month < matchField e.months monthsMask (t.month + 1)
            omega⟩
    | true =>
      simp only [nextMYF] at h
      by_cases hy : matchYear e (t.year + 1) = 0
      · rw [if_pos hy] at h
        simp only [Option.some.injEq] at h
        subst h
        exact Or.inl zeroTime_isZero
      · rw [if_neg hy] at h
        have hyb : t.year + 1 ≤ matchYear e (t.year + 1) := by
          rcases matchYear_bounds e (t.year + 1) with hb | hb
          · exact absurd hb hy
          · omega
        by_cases hadom : calculateActualDaysOfMonth e (matchYear e (t.year + 1))
            (minValue e.months) = 0
        · rw [if_pos hadom] at h
          rcases ih false _ r h with h1 | h1 | h1
          · exact Or.inl h1
          · right
            left
            have : (goDate (matchYear e (t.year + 1)) (minValue e.months) 1
                (minValue e.hours) (minValue e.minutes) (minValue e.seconds) 0 t.loc).year =
                matchYear e (t.year + 1) := rfl
            omega
          · right
            left
            obtain ⟨_, hyear, _⟩ := h1
            have : (goDate (matchYear e (t.year + 1)) (minValue e.months) 1
                (minValue e.hours) (minValue e.minutes) (minValue e.seconds) 0 t.loc).year =
                matchYear e (t.year + 1) := rfl
            omega
        · rw [if_neg hadom] at h
          simp only [Option.some.injEq] at h
          subst h
          right
          left
          show t.year < matchYear e (t.year + 1)
          omega

/-- `nextMonth` returns terminal or a strictly later time. -/
theorem nextMonthF_after (e : Expression) (f : Nat) (t r : GoTime)
    (h : nextMonthF f e t = some r) : r.isZero = true ∨ civilBefore t r := by
  rcases nextMYF_increases e f false t r h with h1 | h1 | h1
  · exact Or.inl h1
  · exact Or.inr (Or.inl h1)
  · exact Or.inr (Or.inr ⟨h1.2.1.symm, Or.inl h1.2.2⟩)

/-- `nextYear` returns terminal or a strictly later time. -/
theorem nextYearF_after (e : Expression) (f : Nat) (t r : GoTime)
    (h : nextYearF f e t = some r) : r.isZero = true ∨ civilBefore t r := by
  rcases nextMYF_increases e f true t r h with h1 | h1 | h1
  · exact Or.inl h1
  · exact Or.inr (Or.inl h1)
  · exact absurd h1.1 (by simp)

/-- `nextDayOfMonth` returns terminal or a strictly later time. -/
theorem nextDayOfMonthF_after (e : Expression) (f : Nat) (t r : GoTime) (adom : Nat)
    (h : nextDayOfMonthF f e t adom = some r) : r.isZero = true ∨ civilBefore t r := by
  unfold nextDayOfMonthF at h
  by_cases hi : matchField adom daysMask (t.day + 1) = notFountIdx
  · rw [if_pos hi] at h
    exact nextMonthF_after e f t r h
  · rw [if_neg hi] at h
    simp only [Option.some.injEq] at h
    subst h
    right
    right
    refine ⟨rfl, Or.inr ⟨rfl, Or.inl ?_⟩⟩
    show t.day < matchField adom daysMask (t.day + 1)
    by_cases hd : t.day + 1 ≤ 64
    · have := matchField_ge adom daysMask (t.day + 1) hd
      omega
    · exact absurd (matchField_high _ _ _ (by omega)) hi

/-- `nextHour` returns terminal or a strictly later time. -/
theorem nextHourF_after (e : Expression) (f : Nat) (t r : GoTime) (adom : Nat)
    (h : nextHourF f e t adom = some r) : r.isZero = true ∨ civilBefore t r := by
  unfold nextHourF at h
  by_cases hi : matchField e.hours hoursMask (t.hour + 1) = notFountIdx
  · rw [if_pos hi] at h
    exact nextDayOfMonthF_after e f t r adom h
  · rw [if_neg hi] at h
    simp only [Option.some.injEq] at h
    subst h
    right
    right
    refine ⟨rfl, Or.inr ⟨rfl, Or.inr ⟨rfl, Or.inl ?_⟩⟩⟩
    show t.hour < matchField e.hours hoursMask (t.hour + 1)
    by_cases hd : t.hour + 1 ≤ 64
    · have := matchField_ge e.hours hoursMask (t.hour + 1) hd
      omega
    · exact absurd (matchField_high _ _ _ (by omega)) hi

/-- `nextMinute` returns terminal or a strictly later time. -/
theorem nextMinuteF_after (e : Expression) (f : Nat) (t r : GoTime) (adom : Nat)
    (h : nextMinuteF f e t adom = some r) : r.isZero = true ∨ civilBefore t r := by
  unfold nextMinuteF at h
  by_cases hi : matchField e.minutes minutesMask (t.minute + 1) = notFountIdx
  · rw [if_pos hi] at h
    exact nextHourF_after e f t r adom h
  · rw [if_neg hi] at h
    simp only [Option.some.injEq] at h
    subst h
    right
    right
    refine ⟨rfl, Or.inr ⟨rfl, Or.inr ⟨rfl, Or.inr ⟨rfl, Or.inl ?_⟩⟩⟩⟩
    show t.minute < matchField e.minutes minutesMask (t.minute + 1)
    by_cases hd : t.minute + 1 ≤ 64
    · have := matchField_ge e.minutes minutesMask (t.minute + 1) hd
      omega
    · exact absurd (matchField_high _ _ _ (by omega)) hi

/-- `nextSecond` returns terminal or a strictly later time. -/
theorem nextSecondF_after (e : Expression) (f : Nat) (t r : GoTime) (adom : Nat)
    (h : nextSecondF f e t adom = some r) : r.isZero = true ∨ civilBefore t r := by
  unfold nextSecondF at h
  by_cases hi : matchField e.seconds secondsMask (t.second + 1) = notFountIdx
  · rw [if_pos hi] at h
    exact nextMinuteF_after e f t r adom h
  · rw [if_neg hi] at h
    simp only [Option.some.injEq] at h
    subst h
    right
    right
    refine ⟨rfl, Or.inr ⟨rfl, Or.inr ⟨rfl, Or.inr ⟨rfl, Or.inr ⟨rfl, Or.inl ?_⟩⟩⟩⟩⟩
    show t.second < matchField e.seconds secondsMask (t.second + 1)
    by_cases hd : t.second + 1 ≤ 64
    · have := matchField_ge e.seconds secondsMask (t.second + 1) hd
      omega
    · exact absurd (matchField_high _ _ _ (by omega)) hi

/-- C1.  For every parsed cron expression and every non-zero time `t`,
`Expression.Next` either returns the terminal (zero) time or a time
strictly after `t`; iterating `t := Next(t)` therefore yields a strictly
increasing sequence until terminal.  (`fuel` is the loop fuel of the
embedding; the statement covers every run that returns.) -/
theorem next_terminal_or_strictly_after (e : Expression) (t : GoTime) (fuel : Nat)
    (r : GoTime) (hnz : t.isZero = false) (h : nextF fuel e t = some r) :
    r.isZero = true ∨ civilBefore t r := by
  unfold nextF at h
  rw [if_neg (by rw [hnz]; simp)] at h
  simp only at h
  by_cases hy0 : matchYear e t.year = 0
  · rw [if_pos hy0] at h
    simp only [Option.some.injEq] at h
    subst h
    exact Or.inl zeroTime_isZero
  · rw [if_neg hy0] at h
    by_cases hyne : t.year ≠ matchYear e t.year
    · rw [if_pos hyne] at h
      exact nextYearF_after e fuel t r h
    · rw [if_neg hyne] at h
      by_cases hm64 : matchField e.months monthsMask t.month = notFountIdx
      · rw [if_pos hm64] at h
        exact nextYearF_after e fuel t r h
      · rw [if_neg hm64] at h
        by_cases hmne : t.month ≠ matchField e.months monthsMask t.month
        · rw [if_pos hmne] at h
          exact nextMonthF_after e fuel t r h
        · rw [if_neg hmne] at h
          by_cases hadom : calculateActualDaysOfMonth e t.year t.month = 0
          · rw [if_pos hadom] at h
            exact nextMonthF_after e fuel t r h
          · rw [if_neg hadom] at h
            by_cases hd64 : matchField (calculateActualDaysOfMonth e t.year t.month)
                daysMask t.day = notFountIdx
            · rw [if_pos hd64] at h
              exact nextMonthF_after e fuel t r h
            · rw [if_neg hd64] at h
              by_cases hdne : t.day ≠ matchField (calculateActualDaysOfMonth e t.year t.month)
                  daysMask t.day
              · rw [if_pos hdne] at h
                exact nextDayOfMonthF_after e fuel t r _ h
              · rw [if_neg hdne] at h
                by_cases hh64 : matchField e.hours hoursMask t.hour = notFountIdx
                · rw [if_pos hh64] at h
                  exact nextDayOfMonthF_after e fuel t r _ h
                · rw [if_neg hh64] at h
                  by_cases hhne : t.hour ≠ matchField e.hours hoursMask t.hour
                  · rw [if_pos hhne] at h
                    exact nextHourF_after e fuel t r _ h
                  · rw [if_neg hhne] at h
                    by_cases hmi64 : matchField e.minutes minutesMask t.minute = notFountIdx
                    · rw [if_pos hmi64] at h
                      exact nextHourF_after e fuel t r _ h
                    · rw [if_neg hmi64] at h
                      by_cases hmine : t.minute ≠ matchField e.minutes minutesMask t.minute
                      · rw [if_pos hmine] at h
                        exact nextMinuteF_after e fuel t r _ h
                      · rw [if_neg hmine] at h
                        by_cases hs64 : matchField e.seconds secondsMask t.second = notFountIdx
                        · rw [if_pos hs64] at h
                          exact nextMinuteF_after e fuel t r _ h
                        · rw [if_neg hs64] at h
                          exact nextSecondF_after e fuel t r _ h

/-- C1 witness: from 2020-01-01 00:00:00, the every-second expression
returns 00:00:01 of the same day, which is strictly later. -/
theorem next_terminal_or_strictly_after_witness :
    (GoTime.isZero ⟨2020, 1, 1, 0, 0, 0, 0, 0⟩ = false) ∧
      ((⟨2020, 1, 1, 0, 0, 1, 0, 0⟩ : GoTime).isZero = true ∨
        civilBefore ⟨2020, 1, 1, 0, 0, 0, 0, 0⟩ ⟨2020, 1, 1, 0, 0, 1, 0, 0⟩) :=
  ⟨by decide,
    next_terminal_or_strictly_after exprEverySecond ⟨2020, 1, 1, 0, 0, 0, 0, 0⟩ 10
      ⟨2020, 1, 1, 0, 0, 1, 0, 0⟩ (by decide) (by decide)⟩

/-! ### Shape of non-terminal results (claim C10 groundwork) -/

/-- Every non-terminal time produced by the month/year scan has a zero
nanosecond component and the location of the input time. -/
theorem nextMYF_shape (e : Expression) :
    ∀ fuel : Nat, ∀ mode : Bool, ∀ t r : GoTime, nextMYF fuel mode e t = some r →
      r.isZero = true ∨ (r.nsec = 0 ∧ r.loc = t.loc) := by
  intro fuel
  induction fuel with
  | zero =>
    intro mode t r h
    exact absurd h (by cases mode <;> simp [nextMYF])
  | succ f ih =>
    intro mode t r h
    cases mode with
    | false =>
      simp only [nextMYF] at h
      by_cases hi : matchField e.months monthsMask (t.month + 1) = notFountIdx
      · rw [if_pos hi] at h
        exact ih true t r h
      · rw [if_neg hi] at h
        by_cases hadom : calculateActualDaysOfMonth e t.year
            (matchField e.months monthsMask (t.month + 1)) = 0
        · rw [if_pos hadom] at h
          have h2 := ih false _ r h
          exact h2
        · rw [if_neg hadom] at h
          simp only [Option.some.injEq] at h
          subst h
          exact Or.inr ⟨rfl, rfl⟩
    | true =>
      simp only [nextMYF] at h
      by_cases hy : matchYear e (t.year + 1) = 0
      · rw [if_pos hy] at h
        simp only [Option.some.injEq] at h
        subst h
        exact Or.inl zeroTime_isZero
      · rw [if_neg hy] at h
        by_cases hadom : calculateActualDaysOfMonth e (matchYear e (t.year + 1))
            (minValue e.months) = 0
        · rw [if_pos hadom] at h
          have h2 := ih false _ r h
          exact h2
        · rw [if_neg hadom] at h
          simp only [Option.some.injEq] at h
          subst h
          exact Or.inr ⟨rfl, rfl⟩

/-- As `nextMYF_shape`, for `nextDayOfMonth`. -/
theorem nextDayOfMonthF_shape (e : Expression) (f : Nat) (t r : GoTime) (adom : Nat)
    (h : nextDayOfMonthF f e t adom = some r) :
    r.isZero = true ∨ (r.nsec = 0 ∧ r.loc = t.loc) := by
  unfold nextDayOfMonthF at h
  by_cases hi : matchField adom daysMask (t.day + 1) = notFountIdx
  · rw [if_pos hi] at h
    exact nextMYF_shape e f false t r h
  · rw [if_neg hi] at h
    simp only [Option.some.injEq] at h
    subst h
    exact Or.inr ⟨rfl, rfl⟩

/-- As `nextMYF_shape`, for `nextHour`. -/
theorem nextHourF_shape (e : Expression) (f : Nat) (t r : GoTime) (adom : Nat)
    (h : nextHourF f e t adom = some r) :
    r.isZero = true ∨ (r.nsec = 0 ∧ r.loc = t.loc) := by
  unfold nextHourF at h
  by_cases hi : matchField e.hours hoursMask (t.hour + 1) = notFountIdx
  · rw [if_pos hi] at h
    exact nextDayOfMonthF_shape e f t r adom h
  · rw [if_neg hi] at h
    simp only [Option.some.injEq] at h
    subst h
    exact Or.inr ⟨rfl, rfl⟩

/-- As `nextMYF_shape`, for `nextMinute`. -/
theorem nextMinuteF_shape (e : Expression) (f : Nat) (t r : GoTime) (adom : Nat)
    (h : nextMinuteF f e t adom = some r) :
    r.isZero = true ∨ (r.nsec = 0 ∧ r.loc = t.loc) := by
  unfold nextMinuteF at h
  by_cases hi : matchField e.minutes minutesMask (t.minute + 1) = notFountIdx
  · rw [if_pos hi] at h
    exact nextHourF_shape e f t r adom h
  · rw [if_neg hi] at h
    simp only [Option.some.injEq] at h
    subst h
    exact Or.inr ⟨rfl, rfl⟩

/-- As `nextMYF_shape`, for `nextSecond`. -/
theorem nextSecondF_shape (e : Expression) (f : Nat) (t r : GoTime) (adom : Nat)
    (h : nextSecondF f e t adom = some r) :
    r.isZero = true ∨ (r.nsec = 0 ∧ r.loc = t.loc) := by
  unfold nextSecondF at h
  by_cases hi : matchField e.seconds secondsMask (t.second + 1) = notFountIdx
  · rw [if_pos hi] at h
    exact nextMinuteF_shape e f t r adom h
  · rw [if_neg hi] at h
    simp only [Option.some.injEq] at h
    subst h
    exact Or.inr ⟨rfl, rfl⟩

/-- C10.  Whenever `Expression.Next` returns a non-terminal time, that
time has a zero nanosecond component (fire instants are whole seconds)
and carries the same `time.Location` tag as the input time. -/
theorem next_nonterminal_whole_second_same_loc (e : Expression) (t : GoTime)
    (fuel : Nat) (r : GoTime) (h : nextF fuel e t = some r) (hr : r.isZero = false) :
    r.nsec = 0 ∧ r.loc = t.loc := by
  have main : r.isZero = true ∨ (r.nsec = 0 ∧ r.loc = t.loc) := by
    unfold nextF at h
    by_cases hz : t.isZero = true
    · rw [if_pos hz] at h
      simp only [Option.some.injEq] at h
      subst h
      exact Or.inl hz
    · rw [if_neg hz] at h
      simp only at h
      by_cases hy0 : matchYear e t.year = 0
      · rw [if_pos hy0] at h
        simp only [Option.some.injEq] at h
        subst h
        exact Or.inl zeroTime_isZero
      · rw [if_neg hy0] at h
        by_cases hyne : t.year ≠ matchYear e t.year
        · rw [if_pos hyne] at h
          exact nextMYF_shape e fuel true t r h
        · rw [if_neg hyne] at h
          by_cases hm64 : matchField e.months monthsMask t.month = notFountIdx
          · rw [if_pos hm64] at h
            exact nextMYF_shape e fuel true t r h
          · rw [if_neg hm64] at h
            by_cases hmne : t.month ≠ matchField e.months monthsMask t.month
            · rw [if_pos hmne] at h
              exact nextMYF_shape e fuel false t r h
            · rw [if_neg hmne] at h
              by_cases hadom : calculateActualDaysOfMonth e t.year t.month = 0
              · rw [if_pos hadom] at h
                exact nextMYF_shape e fuel false t r h
              · rw [if_neg hadom] at h
                by_cases hd64 : matchField (calculateActualDaysOfMonth e t.year t.month)
                    daysMask t.day = notFountIdx
                · rw [if_pos hd64] at h
                  exact nextMYF_shape e fuel false t r h
                · rw [if_neg hd64] at h
                  by_cases hdne : t.day ≠ matchField (calculateActualDaysOfMonth e t.year t.month)
                      daysMask t.day
                  · rw [if_pos hdne] at h
                    exact nextDayOfMonthF_shape e fuel t r _ h
                  · rw [if_neg hdne] at h
                    by_cases hh64 : matchField e.hours hoursMask t.hour = notFountIdx
                    · rw [if_pos hh64] at h
                      exact nextDayOfMonthF_shape e fuel t r _ h
                    · rw [if_neg hh64] at h
                      by_cases hhne : t.hour ≠ matchField e.hours hoursMask t.hour
                      · rw [if_pos hhne] at h
                        exact nextHourF_shape e fuel t r _ h
                      · rw [if_neg hhne] at h
                        by_cases hmi64 : matchField e.minutes minutesMask t.minute = notFountIdx
                        · rw [if_pos hmi64] at h
                          exact nextHourF_shape e fuel t r _ h
                        · rw [if_neg hmi64] at h
                          by_cases hmine : t.minute ≠ matchField e.minutes minutesMask t.minute
                          · rw [if_pos hmine] at h
                            exact nextMinuteF_shape e fuel t r _ h
                          · rw [if_neg hmine] at h
                            by_cases hs64 : matchField e.seconds secondsMask t.second = notFountIdx
                            · rw [if_pos hs64] at h
                              exact nextMinuteF_shape e fuel t r _ h
                            · rw [if_neg hs64] at h
                              exact nextSecondF_shape e fuel t r _ h
  rcases main with h1 | h1
  · rw [h1] at hr
    exact absurd hr (by simp)
  · exact h1

/-- C10 witness: the concrete step of the every-second expression keeps
nanoseconds at zero and keeps the location tag. -/
theorem next_nonterminal_whole_second_same_loc_witness :
    (⟨2020, 1, 1, 0, 0, 1, 0, 7⟩ : GoTime).nsec = 0 ∧
      (⟨2020, 1, 1, 0, 0, 1, 0, 7⟩ : GoTime).loc =
        (⟨2020, 1, 1, 0, 0, 0, 0, 7⟩ : GoTime).loc :=
  next_nonterminal_whole_second_same_loc exprEverySecond ⟨2020, 1, 1, 0, 0, 0, 0, 7⟩ 10
    ⟨2020, 1, 1, 0, 0, 1, 0, 7⟩ (by decide) (by decide)

/-! ### The scan terminates: fuel sufficiency (claim C7 groundwork)

The year candidate is clamped into `[1970, 2161]` after at most one
step and then strictly increases, and within one year the month
candidate strictly increases up to 12, so
`15 · 193 + 14 < 4000` units of fuel always suffice. -/

/-- Fuel sufficiency for the month/year scan. -/
theorem nextMYF_isSome (e : Expression) :
    ∀ fuel : Nat, ∀ t : GoTime,
      (15 * (2162 - max t.year 1969).toNat + 1 ≤ fuel →
        (nextMYF fuel true e t).isSome = true) ∧
      (15 * (2162 - max t.year 1969).toNat + 2 + (12 - t.month) ≤ fuel →
        (nextMYF fuel false e t).isSome = true) := by
  intro fuel
  induction fuel with
  | zero =>
    intro t
    constructor
    · intro hb
      exact absurd hb (by omega)
    · intro hb
      exact absurd hb (by omega)
  | succ f ih =>
    intro t
    constructor
    · intro hb
      simp only [nextMYF]
      by_cases hy : matchYear e (t.year + 1) = 0
      · rw [if_pos hy]
        rfl
      · rw [if_neg hy]
        have hyb : 1970 ≤ matchYear e (t.year + 1) ∧ matchYear e (t.year + 1) ≤ 2161 ∧
            t.year + 1 ≤ matchYear e (t.year + 1) := by
          rcases matchYear_bounds e (t.year + 1) with h1 | h1
          · exact absurd h1 hy
          · exact ⟨h1.1, h1.2.1, h1.2.2⟩
        by_cases hadom : calculateActualDaysOfMonth e (matchYear e (t.year + 1))
            (minValue e.months) = 0
        · rw [if_pos hadom]
          have hIH : 15 * (2162 - max (matchYear e (t.year + 1)) 1969).toNat + 2 +
              (12 - minValue e.months) ≤ f →
              (nextMYF f false e
                (goDate (matchYear e (t.year + 1)) (minValue e.months) 1
                  (minValue e.hours) (minValue e.minutes) (minValue e.seconds) 0 t.loc)).isSome =
                true :=
            (ih (goDate (matchYear e (t.year + 1)) (minValue e.months) 1
              (minValue e.hours) (minValue e.minutes) (minValue e.seconds) 0 t.loc)).2
          exact hIH (by omega)
        · rw [if_neg hadom]
          rfl
    · intro hb
      simp only [nextMYF]
      by_cases hi : matchField e.months monthsMask (t.month + 1) = notFountIdx
      · rw [if_pos hi]
        exact (ih t).1 (by omega)
      · rw [if_neg hi]
        have hrange : t.month + 1 ≤ matchField e.months monthsMask (t.month + 1) ∧
            matchField e.months monthsMask (t.month + 1) ≤ 12 := by
          by_cases hm : t.month + 1 ≤ 64
          · obtain ⟨a, b, c, d, evb⟩ :=
              matchField_value_range monthsMask_testBit e.months (t.month + 1) hm hi
            exact ⟨a, by omega⟩
          · exact absurd (matchField_high _ _ _ (by omega)) hi
        by_cases hadom : calculateActualDaysOfMonth e t.year
            (matchField e.months monthsMask (t.month + 1)) = 0
        · rw [if_pos hadom]
          have hIH : 15 * (2162 - max t.year 1969).toNat + 2 +
              (12 - matchField e.months monthsMask (t.month + 1)) ≤ f →
              (nextMYF f false e
                (goDate t.year (matchField e.months monthsMask (t.month + 1)) 1
                  (minValue e.hours) (minValue e.minutes) (minValue e.seconds) 0 t.loc)).isSome =
                true :=
            (ih (goDate t.year (matchField e.months monthsMask (t.month + 1)) 1
              (minValue e.hours) (minValue e.minutes) (minValue e.seconds) 0 t.loc)).2
          exact hIH (by omega)
        · rw [if_neg hadom]
          rfl

/-- Fuel sufficiency for `nextDayOfMonth`. -/
theorem nextDayOfMonthF_isSome (e : Expression) (t : GoTime) (adom : Nat)
    (hb : 15 * (2162 - max t.year 1969).toNat + 14 ≤ 4000) :
    (nextDayOfMonthF 4000 e t adom).isSome = true := by
  unfold nextDayOfMonthF
  by_cases hi : matchField adom daysMask (t.day + 1) = notFountIdx
  · rw [if_pos hi]
    exact (nextMYF_isSome e 4000 t).2 (by omega)
  · rw [if_neg hi]
    rfl

/-- Fuel sufficiency for `nextHour`. -/
theorem nextHourF_isSome (e : Expression) (t : GoTime) (adom : Nat)
    (hb : 15 * (2162 - max t.year 1969).toNat + 14 ≤ 4000) :
    (nextHourF 4000 e t adom).isSome = true := by
  unfold nextHourF
  by_cases hi : matchField e.hours hoursMask (t.hour + 1) = notFountIdx
  · rw [if_pos hi]
    exact nextDayOfMonthF_isSome e t adom hb
  · rw [if_neg hi]
    rfl

/-- Fuel sufficiency for `nextMinute`. -/
theorem nextMinuteF_isSome (e : Expression) (t : GoTime) (adom : Nat)
    (hb : 15 * (2162 - max t.year 1969).toNat + 14 ≤ 4000) :
    (nextMinuteF 4000 e t adom).isSome = true := by
  unfold nextMinuteF
  by_cases hi : matchField e.minutes minutesMask (t.minute + 1) = notFountIdx
  · rw [if_pos hi]
    exact nextHourF_isSome e t adom hb
  · rw [if_neg hi]
    rfl

/-- Fuel sufficiency for `nextSecond`. -/
theorem nextSecondF_isSome (e : Expression) (t : GoTime) (adom : Nat)
    (hb : 15 * (2162 - max t.year 1969).toNat + 14 ≤ 4000) :
    (nextSecondF 4000 e t adom).isSome = true := by
  unfold nextSecondF
  by_cases hi : matchField e.seconds secondsMask (t.second + 1) = notFountIdx
  · rw [if_pos hi]
    exact nextMinuteF_isSome e t adom hb
  · rw [if_neg hi]
    rfl

/-- `Expression.Next` always returns within 4000 units of fuel: the Go
function terminates (and, in Go, cannot raise) on every input. -/
theorem nextF_isSome (e : Expression) (t : GoTime) :
    (nextF 4000 e t).isSome = true := by
  have hb : 15 * (2162 - max t.year 1969).toNat + 14 ≤ 4000 := by omega
  unfold nextF
  by_cases hz : t.isZero = true
  · rw [if_pos hz]
    rfl
  · rw [if_neg hz]
    simp only
    by_cases hy0 : matchYear e t.year = 0
    · rw [if_pos hy0]
      rfl
    · rw [if_neg hy0]
      by_cases hyne : t.year ≠ matchYear e t.year
      · rw [if_pos hyne]
        exact (nextMYF_isSome e 4000 t).1 (by omega)
      · rw [if_neg hyne]
        by_cases hm64 : matchField e.months monthsMask t.month = notFountIdx
        · rw [if_pos hm64]
          exact (nextMYF_isSome e 4000 t).1 (by omega)
        · rw [if_neg hm64]
          by_cases hmne : t.month ≠ matchField e.months monthsMask t.month
          · rw [if_pos hmne]
            exact (nextMYF_isSome e 4000 t).2 (by omega)
          · rw [if_neg hmne]
            by_cases hadom : calculateActualDaysOfMonth e t.year t.month = 0
            · rw [if_pos hadom]
              exact (nextMYF_isSome e 4000 t).2 (by omega)
            · rw [if_neg hadom]
              by_cases hd64 : matchField (calculateActualDaysOfMonth e t.year t.month)
                  daysMask t.day = notFountIdx
              · rw [if_pos hd64]
                exact (nextMYF_isSome e 4000 t).2 (by omega)
              · rw [if_neg hd64]
                by_cases hdne : t.day ≠ matchField (calculateActualDaysOfMonth e t.year t.month)
                    daysMask t.day
                · rw [if_pos hdne]
                  exact nextDayOfMonthF_isSome e t _ hb
                · rw [if_neg hdne]
                  by_cases hh64 : matchField e.hours hoursMask t.hour = notFountIdx
                  · rw [if_pos hh64]
                    exact nextDayOfMonthF_isSome e t _ hb
                  · rw [if_neg hh64]
                    by_cases hhne : t.hour ≠ matchField e.hours hoursMask t.hour
                    · rw [if_pos hhne]
                      exact nextHourF_isSome e t _ hb
                    · rw [if_neg hhne]
                      by_cases hmi64 : matchField e.minutes minutesMask t.minute = notFountIdx
                      · rw [if_pos hmi64]
                        exact nextHourF_isSome e t _ hb
                      · rw [if_neg hmi64]
                        by_cases hmine : t.minute ≠ matchField e.minutes minutesMask t.minute
                        · rw [if_pos hmine]
                          exact nextMinuteF_isSome e t _ hb
                        · rw [if_neg hmine]
                          by_cases hs64 : matchField e.seconds secondsMask t.second = notFountIdx
                          · rw [if_pos hs64]
                            exact nextMinuteF_isSome e t _ hb
                          · rw [if_neg hs64]
                            exact nextSecondF_isSome e t _ hb

/-! ### Validity groundwork (claim C7) -/

/-- Every month length is between 28 and 31. -/
theorem daysInMonth_bounds (y : Int) (m : Nat) :
    28 ≤ daysInMonth y m ∧ daysInMonth y m ≤ 31 := by
  unfold daysInMonth
  split
  · split <;> omega
  all_goals omega

/-- Bits of the per-month day window. -/
theorem monthMask_testBit (lastDay b : Nat) (_hL : lastDay ≤ 63) :
    (monthMask lastDay).testBit b =
      (daysMask.testBit b && decide (63 - lastDay ≤ b)) := by
  unfold monthMask shl64 shr64
  rw [Nat.testBit_mod_two_pow, Nat.testBit_shiftLeft, Nat.testBit_shiftRight]
  by_cases hge : 63 - lastDay ≤ b
  · have hidx : 63 - lastDay + (b - (63 - lastDay)) = b := by omega
    rw [hidx]
    by_cases hb64 : b < 64
    · simp [hb64, hge]
    · have hfd : daysMask.testBit b = false := by
        rw [daysMask_testBit]
        simp only [decide_eq_false_iff_not]
        omega
      simp [hb64, hfd]
  · have : ¬(b ≥ 63 - lastDay) := hge
    simp [this, hge]

/-- The computed day set is contained in the month's day window. -/
theorem calculate_subset (e : Expression) (y : Int) (m : Nat) :
    calculateActualDaysOfMonth e y m &&& monthMask (daysInMonth y m) =
      calculateActualDaysOfMonth e y m := by
  unfold calculateActualDaysOfMonth
  simp only
  split
  · exact Nat.and_self _
  · rw [Nat.and_assoc, Nat.and_self]

/-- A day present in the computed day set is a real day of the month. -/
theorem adom_day_bounds {e : Expression} {y : Int} {m : Nat} {d : Nat}
    (hd : d ≤ 63)
    (htb : (calculateActualDaysOfMonth e y m).testBit (63 - d) = true) :
    1 ≤ d ∧ d ≤ daysInMonth y m := by
  have hmm := testBit_of_and_eq (calculate_subset e y m) htb
  have hLb := daysInMonth_bounds y m
  rw [monthMask_testBit _ _ (by omega)] at hmm
  rw [Bool.and_eq_true_iff] at hmm
  obtain ⟨hdm, hge⟩ := hmm
  rw [daysMask_testBit] at hdm
  simp only [decide_eq_true_eq] at hdm hge
  omega

set_option maxRecDepth 4000 in
/-- On a full word, `matchField` starting at `b < 64` returns `b`. -/
theorem matchField_full : ∀ b : Nat, b < 64 → matchField maxUint64 maxUint64 b = b := by
  decide

/-- Bits of the legal third-year-word mask (year indexes 128–129). -/
theorem years2Mask_testBit : ∀ b, (0xc000000000000000 : Nat).testBit b =
    decide (62 ≤ b ∧ b ≤ 63) :=
  testBit_const_lo_hi (by norm_num) (by decide) (by norm_num)

/-- With well-formed year words the year scan never reports a year above
2099. -/
theorem matchYear_wf (e : Expression)
    (hyears : (e.years0 = maxUint64 ∧ e.years1 = maxUint64 ∧ e.years2 = maxUint64) ∨
      (e.years0 < 2 ^ 64 ∧ e.years1 < 2 ^ 64 ∧
        e.years2 &&& 0xc000000000000000 = e.years2))
    (y : Int) : matchYear e y = 0 ∨ matchYear e y ≤ 2099 := by
  by_cases hy : 2099 < y
  · left
    unfold matchYear
    rw [if_pos hy]
  · have hexp : matchYear e y =
        matchYearLoop e 3 (((if y < 1970 then (1970 : Int) else y) - 1970).toNat >>> 6)
          (((if y < 1970 then (1970 : Int) else y) - 1970).toNat &&& 63) := by
      unfold matchYear
      rw [if_neg hy]
    set y2 := if y < 1970 then (1970 : Int) else y with hy2
    have hy2b : 1970 ≤ y2 ∧ y2 ≤ 2099 := by
      rw [hy2]
      split <;> omega
    set idx := (y2 - 1970).toNat with hidx
    have hidxle : idx ≤ 129 := by omega
    have hdiv : idx >>> 6 = idx / 64 := by
      simpa using Nat.shiftRight_eq_div_pow idx 6
    have hand : idx &&& 63 = idx % 64 := by
      simpa using Nat.and_pow_two_sub_one_eq_mod idx 6
    rcases hyears with hall | hrest
    · -- all-ones year words: the first probed bit matches immediately
      right
      rw [hexp]
      have hword : ∀ i : Nat, e.yearsWord i = maxUint64 := by
        intro i
        match i with
        | 0 => exact hall.1
        | 1 => exact hall.2.1
        | (n + 2) => exact hall.2.2
      rw [matchYearLoop]
      have hi3 : idx >>> 6 < 3 := by omega
      rw [if_pos hi3, hword]
      have hfull := matchField_full (idx &&& 63) (by omega)
      rw [hfull]
      have hne : (idx &&& 63) ≠ notFountIdx := by
        rw [hand]
        show idx % 64 ≠ 64
        omega
      rw [if_pos hne]
      have hshift : ((idx >>> 6) <<< 6 : Nat) = (idx >>> 6) * 64 := by
        rw [Nat.shiftLeft_eq]
      push_cast [hshift, hdiv, hand]
      omega
    · -- validated year lists: bits beyond index 129 are absent
      have hloop : ∀ f i bit : Nat, bit ≤ 63 →
          matchYearLoop e f i bit = 0 ∨ matchYearLoop e f i bit ≤ 2099 := by
        intro f
        induction f with
        | zero =>
          intro i bit _
          left
          rfl
        | succ f ih =>
          intro i bit hbit
          rw [matchYearLoop]
          by_cases hi : i < 3
          · rw [if_pos hi]
            by_cases hfound : matchField (e.yearsWord i) maxUint64 bit ≠ notFountIdx
            · rw [if_pos hfound]
              right
              have hle : matchField (e.yearsWord i) maxUint64 bit ≤ 63 ∧
                  (e.yearsWord i).testBit
                    (63 - matchField (e.yearsWord i) maxUint64 bit) = true := by
                rcases matchField_cases (e.yearsWord i) maxUint64 bit (by omega) with h | h
                · exact absurd h hfound
                · exact ⟨h.2.1, h.2.2.1⟩
              have hshift : (i <<< 6 : Nat) = i * 64 := by
                rw [Nat.shiftLeft_eq]
              by_cases hi2 : i ≤ 1
              · have hval : ((i <<< 6) + matchField (e.yearsWord i) maxUint64 bit +
                    1970 : Nat) ≤ 2099 := by
                  rw [hshift]
                  omega
                exact_mod_cast hval
              · have hieq : i = 2 := by omega
                subst hieq
                have hw2 : e.yearsWord 2 = e.years2 := rfl
                rw [hw2] at hle ⊢
                have hfle : matchField e.years2 maxUint64 bit ≤ 1 := by
                  have htb := testBit_of_and_eq hrest.2.2 hle.2
                  rw [years2Mask_testBit] at htb
                  simp only [decide_eq_true_eq] at htb
                  omega
                have hval : ((2 <<< 6) + matchField e.years2 maxUint64 bit +
                    1970 : Nat) ≤ 2099 := by
                  rw [hshift]
                  omega
                exact_mod_cast hval
            · rw [if_neg hfound]
              exact ih (i + 1) 0 (by omega)
          · rw [if_neg hi]
            left
            rfl
      rw [hexp]
      exact hloop 3 (idx >>> 6) (idx &&& 63) (by rw [hand]; omega)

/-- The month window is a 64-bit word. -/
theorem monthMask_lt (lastDay : Nat) : monthMask lastDay < 2 ^ 64 := by
  unfold monthMask shl64
  exact Nat.mod_lt _ (by positivity)

/-- Every non-terminal time produced by the month/year scan is a valid
civil time in a year between 1970 and 2099 (month mode needs the input
year to be in that range, which holds at every call site). -/
theorem nextMYF_valid (e : Expression) (hWF : WF e) :
    ∀ fuel : Nat, ∀ mode : Bool, ∀ t r : GoTime,
      (mode = false → 1970 ≤ t.year ∧ t.year ≤ 2099) →
      nextMYF fuel mode e t = some r →
      r.isZero = true ∨ (ValidTime r ∧ 1970 ≤ r.year ∧ r.year ≤ 2099) := by
  obtain ⟨hs1, hs2, hmi1, hmi2, hh1, hh2, hmo1, hmo2, hdm, hwdm, hdw, hith, hlwk, hyrs⟩ := hWF
  intro fuel
  induction fuel with
  | zero =>
    intro mode t r _ h
    exact absurd h (by cases mode <;> simp [nextMYF])
  | succ f ih =>
    intro mode t r hty h
    cases mode with
    | false =>
      have htyb := hty rfl
      simp only [nextMYF] at h
      by_cases hi : matchField e.months monthsMask (t.month + 1) = notFountIdx
      · rw [if_pos hi] at h
        exact ih true t r (by simp) h
      · rw [if_neg hi] at h
        have hrange : t.month + 1 ≤ matchField e.months monthsMask (t.month + 1) ∧
            1 ≤ matchField e.months monthsMask (t.month + 1) ∧
            matchField e.months monthsMask (t.month + 1) ≤ 12 := by
          by_cases hm : t.month + 1 ≤ 64
          · obtain ⟨a, b, c, d, evb⟩ :=
              matchField_value_range monthsMask_testBit e.months (t.month + 1) hm hi
            exact ⟨a, by omega, by omega⟩
          · exact absurd (matchField_high _ _ _ (by omega)) hi
        by_cases hadom : calculateActualDaysOfMonth e t.year
            (matchField e.months monthsMask (t.month + 1)) = 0
        · rw [if_pos hadom] at h
          have h2 := ih false
            (goDate t.year (matchField e.months monthsMask (t.month + 1)) 1
              (minValue e.hours) (minValue e.minutes) (minValue e.seconds) 0 t.loc)
            r (fun _ => htyb) h
          exact h2
        · rw [if_neg hadom] at h
          simp only [Option.some.injEq] at h
          subst h
          right
          obtain ⟨hmv63, hmvbit, _⟩ :=
            minValue_mem
              (calculate_subset e t.year (matchField e.months monthsMask (t.month + 1)))
              hadom (monthMask_lt _)
          have hday := adom_day_bounds hmv63 hmvbit
          obtain ⟨hhlo, hhhi, _⟩ :=
            minValue_value_range hoursMask_testBit (by norm_num [hoursMask]) hh1 hh2
          obtain ⟨hmilo, hmihi, _⟩ :=
            minValue_value_range minutesMask_testBit (by norm_num [minutesMask]) hmi1 hmi2
          obtain ⟨hslo, hshi, _⟩ :=
            minValue_value_range secondsMask_testBit (by norm_num [secondsMask]) hs1 hs2
          refine ⟨⟨?_, ?_, ?_, ?_, ?_, ?_, ?_, ?_⟩, ?_, ?_⟩
          · show 1 ≤ matchField e.months monthsMask (t.month + 1)
            omega
          · show matchField e.months monthsMask (t.month + 1) ≤ 12
            omega
          · show 1 ≤ minValue (calculateActualDaysOfMonth e t.year
              (matchField e.months monthsMask (t.month + 1)))
            omega
          · show minValue (calculateActualDaysOfMonth e t.year
                (matchField e.months monthsMask (t.month + 1))) ≤
              daysInMonth t.year (matchField e.months monthsMask (t.month + 1))
            omega
          · show minValue e.hours ≤ 23
            omega
          · show minValue e.minutes ≤ 59
            omega
          · show minValue e.seconds ≤ 59
            omega
          · show (0 : Nat) < 1000000000
            norm_num
          · show 1970 ≤ t.year
            omega
          · show t.year ≤ 2099
            omega
    | true =>
      simp only [nextMYF] at h
      by_cases hy : matchYear e (t.year + 1) = 0
      · rw [if_pos hy] at h
        simp only [Option.some.injEq] at h
        subst h
        exact Or.inl zeroTime_isZero
      · rw [if_neg hy] at h
        have hyb : 1970 ≤ matchYear e (t.year + 1) ∧ matchYear e (t.year + 1) ≤ 2099 := by
          rcases matchYear_bounds e (t.year + 1) with h1 | h1
          · exact absurd h1 hy
          · rcases matchYear_wf e hyrs (t.year + 1) with h2 | h2
            · exact absurd h2 hy
            · exact ⟨h1.1, h2⟩
        have hmorange : 1 ≤ minValue e.months ∧ minValue e.months ≤ 12 := by
          obtain ⟨a, b, _⟩ :=
            minValue_value_range monthsMask_testBit (by norm_num [monthsMask]) hmo1 hmo2
          exact ⟨by omega, by omega⟩
        by_cases hadom : calculateActualDaysOfMonth e (matchYear e (t.year + 1))
            (minValue e.months) = 0
        · rw [if_pos hadom] at h
          have h2 := ih false
            (goDate (matchYear e (t.year + 1)) (minValue e.months) 1
              (minValue e.hours) (minValue e.minutes) (minValue e.seconds) 0 t.loc)
            r (fun _ => hyb) h
          exact h2
        · rw [if_neg hadom] at h
          simp only [Option.some.injEq] at h
          subst h
          right
          obtain ⟨hmv63, hmvbit, _⟩ :=
            minValue_mem
              (calculate_subset e (matchYear e (t.year + 1)) (minValue e.months))
              hadom (monthMask_lt _)
          have hday := adom_day_bounds hmv63 hmvbit
          obtain ⟨hhlo, hhhi, _⟩ :=
            minValue_value_range hoursMask_testBit (by norm_num [hoursMask]) hh1 hh2
          obtain ⟨hmilo, hmihi, _⟩ :=
            minValue_value_range minutesMask_testBit (by norm_num [minutesMask]) hmi1 hmi2
          obtain ⟨hslo, hshi, _⟩ :=
            minValue_value_range secondsMask_testBit (by norm_num [secondsMask]) hs1 hs2
          refine ⟨⟨?_, ?_, ?_, ?_, ?_, ?_, ?_, ?_⟩, ?_, ?_⟩
          · show 1 ≤ minValue e.months
            omega
          · show minValue e.months ≤ 12
            omega
          · show 1 ≤ minValue (calculateActualDaysOfMonth e (matchYear e (t.year + 1))
              (minValue e.months))
            omega
          · show minValue (calculateActualDaysOfMonth e (matchYear e (t.year + 1))
                (minValue e.months)) ≤
              daysInMonth (matchYear e (t.year + 1)) (minValue e.months)
            omega
          · show minValue e.hours ≤ 23
            omega
          · show minValue e.minutes ≤ 59
            omega
          · show minValue e.seconds ≤ 59
            omega
          · show (0 : Nat) < 1000000000
            norm_num
          · show 1970 ≤ matchYear e (t.year + 1)
            omega
          · show matchYear e (t.year + 1) ≤ 2099
            omega

/-- Validity through `nextDayOfMonth`. -/
theorem nextDayOfMonthF_valid (e : Expression) (hWF : WF e) (f : Nat) (t r : GoTime)
    (hV : ValidTime t) (hty : 1970 ≤ t.year ∧ t.year ≤ 2099)
    (h : nextDayOfMonthF f e t (calculateActualDaysOfMonth e t.year t.month) = some r) :
    r.isZero = true ∨ (ValidTime r ∧ 1970 ≤ r.year ∧ r.year ≤ 2099) := by
  obtain ⟨hs1, hs2, hmi1, hmi2, hh1, hh2, hmo1, hmo2, hdm, hwdm, hdw, hith, hlwk, hyrs⟩ := hWF
  unfold nextDayOfMonthF at h
  by_cases hi : matchField (calculateActualDaysOfMonth e t.year t.month) daysMask
      (t.day + 1) = notFountIdx
  · rw [if_pos hi] at h
    exact nextMYF_valid e
      ⟨hs1, hs2, hmi1, hmi2, hh1, hh2, hmo1, hmo2, hdm, hwdm, hdw, hith, hlwk, hyrs⟩
      f false t r (fun _ => hty) h
  · rw [if_neg hi] at h
    simp only [Option.some.injEq] at h
    subst h
    right
    have hdrange : matchField (calculateActualDaysOfMonth e t.year t.month) daysMask
        (t.day + 1) ≤ 63 ∧
        (calculateActualDaysOfMonth e t.year t.month).testBit
          (63 - matchField (calculateActualDaysOfMonth e t.year t.month) daysMask
            (t.day + 1)) = true := by
      by_cases hd : t.day + 1 ≤ 64
      · obtain ⟨a, b, c, d, evb⟩ := matchField_value_range daysMask_testBit
          (calculateActualDaysOfMonth e t.year t.month) (t.day + 1) hd hi
        exact ⟨d, evb⟩
      · exact absurd (matchField_high _ _ _ (by omega)) hi
    have hday := adom_day_bounds hdrange.1 hdrange.2
    obtain ⟨hhlo, hhhi, _⟩ :=
      minValue_value_range hoursMask_testBit (by norm_num [hoursMask]) hh1 hh2
    obtain ⟨hmilo, hmihi, _⟩ :=
      minValue_value_range minutesMask_testBit (by norm_num [minutesMask]) hmi1 hmi2
    obtain ⟨hslo, hshi, _⟩ :=
      minValue_value_range secondsMask_testBit (by norm_num [secondsMask]) hs1 hs2
    obtain ⟨hVm1, hVm2, hVd1, hVd2, hVh, hVmi, hVs, hVn⟩ := hV
    refine ⟨⟨?_, ?_, ?_, ?_, ?_, ?_, ?_, ?_⟩, ?_, ?_⟩
    · show 1 ≤ t.month
      omega
    · show t.month ≤ 12
      omega
    · show 1 ≤ matchField (calculateActualDaysOfMonth e t.year t.month) daysMask (t.day + 1)
      omega
    · show matchField (calculateActualDaysOfMonth e t.year t.month) daysMask (t.day + 1) ≤
        daysInMonth t.year t.month
      omega
    · show minValue e.hours ≤ 23
      omega
    · show minValue e.minutes ≤ 59
      omega
    · show minValue e.seconds ≤ 59
      omega
    · show (0 : Nat) < 1000000000
      norm_num
    · show 1970 ≤ t.year
      omega
    · show t.year ≤ 2099
      omega

/-- Validity through `nextHour`. -/
theorem nextHourF_valid (e : Expression) (hWF : WF e) (f : Nat) (t r : GoTime)
    (hV : ValidTime t) (hty : 1970 ≤ t.year ∧ t.year ≤ 2099)
    (h : nextHourF f e t (calculateActualDaysOfMonth e t.year t.month) = some r) :
    r.isZero = true ∨ (ValidTime r ∧ 1970 ≤ r.year ∧ r.year ≤ 2099) := by
  obtain ⟨hs1, hs2, hmi1, hmi2, hh1, hh2, hmo1, hmo2, hdm, hwdm, hdw, hith, hlwk, hyrs⟩ := hWF
  unfold nextHourF at h
  by_cases hi : matchField e.hours hoursMask (t.hour + 1) = notFountIdx
  · rw [if_pos hi] at h
    exact nextDayOfMonthF_valid e
      ⟨hs1, hs2, hmi1, hmi2, hh1, hh2, hmo1, hmo2, hdm, hwdm, hdw, hith, hlwk, hyrs⟩
      f t r hV hty h
  · rw [if_neg hi] at h
    simp only [Option.some.injEq] at h
    subst h
    right
    have hhrange : matchField e.hours hoursMask (t.hour + 1) ≤ 23 := by
      by_cases hd : t.hour + 1 ≤ 64
      · obtain ⟨a, b, c, d, evb⟩ :=
          matchField_value_range hoursMask_testBit e.hours (t.hour + 1) hd hi
        omega
      · exact absurd (matchField_high _ _ _ (by omega)) hi
    obtain ⟨hmilo, hmihi, _⟩ :=
      minValue_value_range minutesMask_testBit (by norm_num [minutesMask]) hmi1 hmi2
    obtain ⟨hslo, hshi, _⟩ :=
      minValue_value_range secondsMask_testBit (by norm_num [secondsMask]) hs1 hs2
    obtain ⟨hVm1, hVm2, hVd1, hVd2, hVh, hVmi, hVs, hVn⟩ := hV
    refine ⟨⟨?_, ?_, ?_, ?_, ?_, ?_, ?_, ?_⟩, ?_, ?_⟩
    · show 1 ≤ t.month
      omega
    · show t.month ≤ 12
      omega
    · show 1 ≤ t.day
      omega
    · show t.day ≤ daysInMonth t.year t.month
      omega
    · show matchField e.hours hoursMask (t.hour + 1) ≤ 23
      omega
    · show minValue e.minutes ≤ 59
      omega
    · show minValue e.seconds ≤ 59
      omega
    · show (0 : Nat) < 1000000000
      norm_num
    · show 1970 ≤ t.year
      omega
    · show t.year ≤ 2099
      omega

/-- Validity through `nextMinute`. -/
theorem nextMinuteF_valid (e : Expression) (hWF : WF e) (f : Nat) (t r : GoTime)
    (hV : ValidTime t) (hty : 1970 ≤ t.year ∧ t.year ≤ 2099)
    (h : nextMinuteF f e t (calculateActualDaysOfMonth e t.year t.month) = some r) :
    r.isZero = true ∨ (ValidTime r ∧ 1970 ≤ r.year ∧ r.year ≤ 2099) := by
  obtain ⟨hs1, hs2, hmi1, hmi2, hh1, hh2, hmo1, hmo2, hdm, hwdm, hdw, hith, hlwk, hyrs⟩ := hWF
  unfold nextMinuteF at h
  by_cases hi : matchField e.minutes minutesMask (t.minute + 1) = notFountIdx
  · rw [if_pos hi] at h
    exact nextHourF_valid e
      ⟨hs1, hs2, hmi1, hmi2, hh1, hh2, hmo1, hmo2, hdm, hwdm, hdw, hith, hlwk, hyrs⟩
      f t r hV hty h
  · rw [if_neg hi] at h
    simp only [Option.some.injEq] at h
    subst h
    right
    have hmrange : matchField e.minutes minutesMask (t.minute + 1) ≤ 59 := by
      by_cases hd : t.minute + 1 ≤ 64
      · obtain ⟨a, b, c, d, evb⟩ :=
          matchField_value_range minutesMask_testBit e.minutes (t.minute + 1) hd hi
        omega
      · exact absurd (matchField_high _ _ _ (by omega)) hi
    obtain ⟨hslo, hshi, _⟩ :=
      minValue_value_range secondsMask_testBit (by norm_num [secondsMask]) hs1 hs2
    obtain ⟨hVm1, hVm2, hVd1, hVd2, hVh, hVmi, hVs, hVn⟩ := hV
    refine ⟨⟨?_, ?_, ?_, ?_, ?_, ?_, ?_, ?_⟩, ?_, ?_⟩
    · show 1 ≤ t.month
      omega
    · show t.month ≤ 12
      omega
    · show 1 ≤ t.day
      omega
    · show t.day ≤ daysInMonth t.year t.month
      omega
    · show t.hour ≤ 23
      omega
    · show matchField e.minutes minutesMask (t.minute + 1) ≤ 59
      omega
    · show minValue e.seconds ≤ 59
      omega
    · show (0 : Nat) < 1000000000
      norm_num
    · show 1970 ≤ t.year
      omega
    · show t.year ≤ 2099
      omega

/-- Validity through `nextSecond`. -/
theorem nextSecondF_valid (e : Expression) (hWF : WF e) (f : Nat) (t r : GoTime)
    (hV : ValidTime t) (hty : 1970 ≤ t.year ∧ t.year ≤ 2099)
    (h : nextSecondF f e t (calculateActualDaysOfMonth e t.year t.month) = some r) :
    r.isZero = true ∨ (ValidTime r ∧ 1970 ≤ r.year ∧ r.year ≤ 2099) := by
  obtain ⟨hs1, hs2, hmi1, hmi2, hh1, hh2, hmo1, hmo2, hdm, hwdm, hdw, hith, hlwk, hyrs⟩ := hWF
  unfold nextSecondF at h
  by_cases hi : matchField e.seconds secondsMask (t.second + 1) = notFountIdx
  · rw [if_pos hi] at h
    exact nextMinuteF_valid e
      ⟨hs1, hs2, hmi1, hmi2, hh1, hh2, hmo1, hmo2, hdm, hwdm, hdw, hith, hlwk, hyrs⟩
      f t r hV hty h
  · rw [if_neg hi] at h
    simp only [Option.some.injEq] at h
    subst h
    right
    have hsrange : matchField e.seconds secondsMask (t.second + 1) ≤ 59 := by
      by_cases hd : t.second + 1 ≤ 64
      · obtain ⟨a, b, c, d, evb⟩ :=
          matchField_value_range secondsMask_testBit e.seconds (t.second + 1) hd hi
        omega
      · exact absurd (matchField_high _ _ _ (by omega)) hi
    obtain ⟨hVm1, hVm2, hVd1, hVd2, hVh, hVmi, hVs, hVn⟩ := hV
    refine ⟨⟨?_, ?_, ?_, ?_, ?_, ?_, ?_, ?_⟩, ?_, ?_⟩
    · show 1 ≤ t.month
      omega
    · show t.month ≤ 12
      omega
    · show 1 ≤ t.day
      omega
    · show t.day ≤ daysInMonth t.year t.month
      omega
    · show t.hour ≤ 23
      omega
    · show t.minute ≤ 59
      omega
    · show matchField e.seconds secondsMask (t.second + 1) ≤ 59
      omega
    · show (0 : Nat) < 1000000000
      norm_num
    · show 1970 ≤ t.year
      omega
    · show t.year ≤ 2099
      omega

/-- C7.  For a well-formed (correctly parsed) expression and a valid
input time, `Expression.Next` always returns (never hangs, and in Go
raises no error); it returns the terminal time on the zero input and
when the year scan passes 2099 at the input's year; and every
non-terminal result comes from a non-zero input and is a valid civil
time in a year between 1970 and 2099. -/
theorem next_terminates_with_terminal_semantics (e : Expression) (t : GoTime)
    (hWF : WF e) (hV : ValidTime t) :
    ∃ r : GoTime, nextF 4000 e t = some r ∧
      (t.isZero = true → r.isZero = true) ∧
      (t.isZero = false → matchYear e t.year = 0 → r.isZero = true) ∧
      (r.isZero = false →
        t.isZero = false ∧ ValidTime r ∧ 1970 ≤ r.year ∧ r.year ≤ 2099) := by
  obtain ⟨r, hr⟩ := Option.isSome_iff_exists.mp (nextF_isSome e t)
  refine ⟨r, hr, ?_, ?_, ?_⟩
  · intro hz
    unfold nextF at hr
    rw [if_pos hz] at hr
    simp only [Option.some.injEq] at hr
    subst hr
    exact hz
  · intro hz hy0
    unfold nextF at hr
    rw [if_neg (by simp [hz])] at hr
    simp only at hr
    rw [if_pos hy0] at hr
    simp only [Option.some.injEq] at hr
    subst hr
    exact zeroTime_isZero
  · intro hrz
    by_cases hz : t.isZero = true
    · unfold nextF at hr
      rw [if_pos hz] at hr
      simp only [Option.some.injEq] at hr
      subst hr
      rw [hz] at hrz
      exact absurd hrz (by simp)
    · simp only [Bool.not_eq_true] at hz
      refine ⟨hz, ?_⟩
      unfold nextF at hr
      rw [if_neg (by simp [hz])] at hr
      simp only at hr
      by_cases hy0 : matchYear e t.year = 0
      · rw [if_pos hy0] at hr
        simp only [Option.some.injEq] at hr
        subst hr
        rw [zeroTime_isZero] at hrz
        exact absurd hrz (by simp)
      · rw [if_neg hy0] at hr
        have hWF2 := hWF
        obtain ⟨hs1, hs2, hmi1, hmi2, hh1, hh2, hmo1, hmo2,
          hdm, hwdm, hdw, hith, hlwk, hyrs⟩ := hWF2
        have hmyb : 1970 ≤ matchYear e t.year ∧ matchYear e t.year ≤ 2099 := by
          rcases matchYear_bounds e t.year with h1 | h1
          · exact absurd h1 hy0
          · rcases matchYear_wf e hyrs t.year with h2 | h2
            · exact absurd h2 hy0
            · exact ⟨h1.1, h2⟩
        by_cases hyne : t.year ≠ matchYear e t.year
        · rw [if_pos hyne] at hr
          rcases nextMYF_valid e hWF 4000 true t r (by simp) hr with h1 | h1
          · rw [h1] at hrz
            exact absurd hrz (by simp)
          · exact h1
        · rw [if_neg hyne] at hr
          have hteq : t.year = matchYear e t.year := not_ne_iff.mp hyne
          have htyb : 1970 ≤ t.year ∧ t.year ≤ 2099 := by
            rw [hteq]
            exact hmyb
          have resolve : (r.isZero = true ∨ (ValidTime r ∧ 1970 ≤ r.year ∧ r.year ≤ 2099)) →
              ValidTime r ∧ 1970 ≤ r.year ∧ r.year ≤ 2099 := by
            intro h1
            rcases h1 with h1 | h1
            · rw [h1] at hrz
              exact absurd hrz (by simp)
            · exact h1
          by_cases hm64 : matchField e.months monthsMask t.month = notFountIdx
          · rw [if_pos hm64] at hr
            exact resolve (nextMYF_valid e hWF 4000 true t r (by simp) hr)
          · rw [if_neg hm64] at hr
            by_cases hmne : t.month ≠ matchField e.months monthsMask t.month
            · rw [if_pos hmne] at hr
              exact resolve (nextMYF_valid e hWF 4000 false t r (fun _ => htyb) hr)
            · rw [if_neg hmne] at hr
              by_cases hadom : calculateActualDaysOfMonth e t.year t.month = 0
              · rw [if_pos hadom] at hr
                exact resolve (nextMYF_valid e hWF 4000 false t r (fun _ => htyb) hr)
              · rw [if_neg hadom] at hr
                by_cases hd64 : matchField (calculateActualDaysOfMonth e t.year t.month)
                    daysMask t.day = notFountIdx
                · rw [if_pos hd64] at hr
                  exact resolve (nextMYF_valid e hWF 4000 false t r (fun _ => htyb) hr)
                · rw [if_neg hd64] at hr
                  by_cases hdne : t.day ≠
                      matchField (calculateActualDaysOfMonth e t.year t.month) daysMask t.day
                  · rw [if_pos hdne] at hr
                    exact resolve (nextDayOfMonthF_valid e hWF 4000 t r hV htyb hr)
                  · rw [if_neg hdne] at hr
                    by_cases hh64 : matchField e.hours hoursMask t.hour = notFountIdx
                    · rw [if_pos hh64] at hr
                      exact resolve (nextDayOfMonthF_valid e hWF 4000 t r hV htyb hr)
                    · rw [if_neg hh64] at hr
                      by_cases hhne : t.hour ≠ matchField e.hours hoursMask t.hour
                      · rw [if_pos hhne] at hr
                        exact resolve (nextHourF_valid e hWF 4000 t r hV htyb hr)
                      · rw [if_neg hhne] at hr
                        by_cases hmi64 : matchField e.minutes minutesMask t.minute = notFountIdx
                        · rw [if_pos hmi64] at hr
                          exact resolve (nextHourF_valid e hWF 4000 t r hV htyb hr)
                        · rw [if_neg hmi64] at hr
                          by_cases hmine : t.minute ≠ matchField e.minutes minutesMask t.minute
                          · rw [if_pos hmine] at hr
                            exact resolve (nextMinuteF_valid e hWF 4000 t r hV htyb hr)
                          · rw [if_neg hmine] at hr
                            by_cases hs64 : matchField e.seconds secondsMask t.second =
                                notFountIdx
                            · rw [if_pos hs64] at hr
                              exact resolve (nextMinuteF_valid e hWF 4000 t r hV htyb hr)
                            · rw [if_neg hs64] at hr
                              exact resolve (nextSecondF_valid e hWF 4000 t r hV htyb hr)

/-- C7 witness: the every-second expression is well-formed, 2020-01-01
00:00:00 is a valid non-zero time, and the conclusions hold at that
input. -/
theorem next_terminates_with_terminal_semantics_witness :
    ∃ r : GoTime, nextF 4000 exprEverySecond ⟨2020, 1, 1, 0, 0, 0, 0, 0⟩ = some r ∧
      ((⟨2020, 1, 1, 0, 0, 0, 0, 0⟩ : GoTime).isZero = true → r.isZero = true) ∧
      ((⟨2020, 1, 1, 0, 0, 0, 0, 0⟩ : GoTime).isZero = false →
        matchYear exprEverySecond (2020 : Int) = 0 → r.isZero = true) ∧
      (r.isZero = false →
        (⟨2020, 1, 1, 0, 0, 0, 0, 0⟩ : GoTime).isZero = false ∧
          ValidTime r ∧ 1970 ≤ r.year ∧ r.year ≤ 2099) :=
  next_terminates_with_terminal_semantics exprEverySecond ⟨2020, 1, 1, 0, 0, 0, 0, 0⟩
    (by decide) (by decide)

/-! ### Crontab day reconciliation (claim C5) -/

/-- Membership in the month's day window, by day value. -/
theorem monthMask_day_iff (y : Int) (m d : Nat) (hd : d ≤ 63) :
    (monthMask (daysInMonth y m)).testBit (63 - d) = true ↔
      1 ≤ d ∧ d ≤ daysInMonth y m := by
  have hL := daysInMonth_bounds y m
  rw [monthMask_testBit _ _ (by omega), Bool.and_eq_true_iff, daysMask_testBit]
  simp only [decide_eq_true_eq]
  omega

/-- C5.  `calculateActualDaysOfMonth` implements the crontab rule: when
both the day-of-month and day-of-week fields are unrestricted it accepts
exactly the days up to the month's real last day; otherwise it is the
union of the day-of-month derived set (raw days, `L`, `LW`, `nW`,
contributed only when day-of-month is restricted) and the day-of-week
derived set (plain days, `d#n`, `dL`, contributed only when day-of-week
is restricted), with all bits beyond the month's real last day cleared;
in particular, when both fields are restricted a day is legal exactly
when either derived set contains it. -/
theorem calculateActualDaysOfMonth_crontab_rule (e : Expression) (y : Int) (m : Nat) :
    (e.daysOfMonth = daysMask ∧ e.daysOfWeek = weeksMask →
      calculateActualDaysOfMonth e y m = monthMask (daysInMonth y m) ∧
      ∀ d : Nat, d ≤ 63 →
        ((calculateActualDaysOfMonth e y m).testBit (63 - d) = true ↔
          1 ≤ d ∧ d ≤ daysInMonth y m)) ∧
    (¬(e.daysOfMonth = daysMask ∧ e.daysOfWeek = weeksMask) →
      calculateActualDaysOfMonth e y m =
        ((if e.daysOfMonth ≠ daysMask then domDerivedDays e y m else 0) |||
          (if e.daysOfWeek ≠ weeksMask then dowDerivedDays e y m else 0)) &&&
          monthMask (daysInMonth y m)) ∧
    (∀ b : Nat, (calculateActualDaysOfMonth e y m).testBit b = true →
      63 - daysInMonth y m ≤ b ∧ b ≤ 62) ∧
    (e.daysOfMonth ≠ daysMask → e.daysOfWeek ≠ weeksMask →
      ∀ d : Nat, d ≤ 63 →
        ((calculateActualDaysOfMonth e y m).testBit (63 - d) = true ↔
          (1 ≤ d ∧ d ≤ daysInMonth y m ∧
            ((domDerivedDays e y m).testBit (63 - d) = true ∨
              (dowDerivedDays e y m).testBit (63 - d) = true)))) := by
  have hL := daysInMonth_bounds y m
  refine ⟨?_, ?_, ?_, ?_⟩
  · intro hboth
    have heq : calculateActualDaysOfMonth e y m = monthMask (daysInMonth y m) := by
      unfold calculateActualDaysOfMonth
      simp only
      rw [if_pos hboth]
    refine ⟨heq, fun d hd => ?_⟩
    rw [heq]
    exact monthMask_day_iff y m d hd
  · intro hboth
    unfold calculateActualDaysOfMonth
    simp only
    rw [if_neg hboth]
    by_cases hdw : e.daysOfWeek ≠ weeksMask
    · rw [if_pos hdw, if_pos hdw]
    · rw [if_neg hdw, if_neg hdw]
      rw [Nat.or_zero]
  · intro b htb
    have hmb := testBit_of_and_eq (calculate_subset e y m) htb
    rw [monthMask_testBit _ _ (by omega), Bool.and_eq_true_iff, daysMask_testBit] at hmb
    simp only [decide_eq_true_eq] at hmb
    omega
  · intro hdm hdw d hd
    have heq : calculateActualDaysOfMonth e y m =
        (domDerivedDays e y m ||| dowDerivedDays e y m) &&& monthMask (daysInMonth y m) := by
      unfold calculateActualDaysOfMonth
      simp only
      rw [if_neg (by tauto), if_pos hdm, if_pos hdw]
    rw [heq, Nat.testBit_and, Nat.testBit_or, Bool.and_eq_true_iff, Bool.or_eq_true_iff]
    rw [monthMask_day_iff y m d hd]
    tauto

/-! ### Step validation in the field parser (claim C8) -/

/-- C8.  For every field parser, an entry carrying an explicit step
(`*/s`, `a/s`, `a-b/s` — the entry is not a plain value, so the field's
`atoi` rejects it as a whole) parses successfully only when the step
satisfies `1 ≤ s ≤ max - min`; in particular, in the seconds field
`*/60` is rejected with a malformed-cron error while step `1` and step
`max - min = 59` are accepted. -/
theorem parseEntry_step_bounds :
    (∀ (fp : FieldParser) (e : Expression) (entry : String) (r : Expression),
      goIndexByte entry '/' ≠ -1 →
      fp.atoi entry = none →
      parseEntry fp e entry = some r →
      ∃ s : Int, fp.atoi (strDrop entry ((goIndexByte entry '/').toNat + 1)) = some s ∧
        1 ≤ s ∧ s ≤ fp.max - fp.min) ∧
    parseEntry secondFieldParser emptyExpression "*/60" = none ∧
    (parseEntry secondFieldParser emptyExpression "*/1").isSome = true ∧
    (parseEntry secondFieldParser emptyExpression "*/59").isSome = true := by
  refine ⟨?_, by decide, by decide, by decide⟩
  intro fp e entry r hslash hat h
  unfold parseEntry at h
  by_cases hstar : entry = "*"
  · rw [hstar] at hslash
    exact absurd (by decide : goIndexByte "*" '/' = (-1 : Int)) hslash
  · rw [if_neg hstar, hat] at h
    simp only at h
    rw [if_pos hslash] at h
    cases hstep : fp.atoi (strDrop entry ((goIndexByte entry '/').toNat + 1)) with
    | none =>
      rw [hstep] at h
      exact absurd h (by simp)
    | some s =>
      rw [hstep] at h
      simp only at h
      by_cases hrange : s < 1 ∨ fp.max - fp.min < s
      · rw [if_pos hrange] at h
        exact absurd h (by simp)
      · push_neg at hrange
        exact ⟨s, rfl, by omega⟩

/-! ### `removeJob` frame properties (claim C9) -/

/-- Swapping preserves the heap length. -/
theorem jqSwap_length (s : JQState) (i j : Nat) : (jqSwap s i j).q.length = s.q.length := by
  unfold jqSwap
  rcases hi : s.q[i]? with _ | a
  · simp [hi]
  · rcases hj : s.q[j]? with _ | b
    · simp [hi, hj]
    · simp [hi, hj, List.length_set]

/-- Swapping two slots leaves every other slot unchanged. -/
theorem jqSwap_getElem_ne (s : JQState) (i j k : Nat) (hik : i ≠ k) (hjk : j ≠ k) :
    (jqSwap s i j).q[k]? = s.q[k]? := by
  unfold jqSwap
  rcases hi : s.q[i]? with _ | a
  · simp [hi]
  · rcases hj : s.q[j]? with _ | b
    · simp [hi, hj]
    · simp only [hi, hj]
      rw [List.getElem?_set_ne hjk, List.getElem?_set_ne hik]

/-- The sift-down loop only touches slots below `n`. -/
theorem jqDownLoop_high (nxt : Nat → Int) (k : Nat) :
    ∀ fuel : Nat, ∀ s : JQState, ∀ i n : Nat, n ≤ k →
      (jqDownLoop nxt fuel s i n).1.q.length = s.q.length ∧
        (jqDownLoop nxt fuel s i n).1.q[k]? = s.q[k]? := by
  intro fuel
  induction fuel with
  | zero =>
    intro s i n _
    exact ⟨rfl, rfl⟩
  | succ f ih =>
    intro s i n hk
    simp only [jqDownLoop]
    by_cases h1 : n ≤ 2 * i + 1
    · rw [if_pos h1]
      exact ⟨rfl, rfl⟩
    · rw [if_neg h1]
      have hilt : i < n := by omega
      by_cases hsel : 2 * i + 1 + 1 < n ∧ jqLess nxt s (2 * i + 1 + 1) (2 * i + 1) = true
      · rw [if_pos hsel]
        by_cases h2 : ¬ jqLess nxt s (2 * i + 1 + 1) i = true
        · rw [if_pos h2]
          exact ⟨rfl, rfl⟩
        · rw [if_neg h2]
          have hs := ih (jqSwap s i (2 * i + 1 + 1)) (2 * i + 1 + 1) n hk
          have hlen := jqSwap_length s i (2 * i + 1 + 1)
          have hget := jqSwap_getElem_ne s i (2 * i + 1 + 1) k (by omega) (by omega)
          exact ⟨hs.1.trans hlen, hs.2.trans hget⟩
      · rw [if_neg hsel]
        by_cases h2 : ¬ jqLess nxt s (2 * i + 1) i = true
        · rw [if_pos h2]
          exact ⟨rfl, rfl⟩
        · rw [if_neg h2]
          have hs := ih (jqSwap s i (2 * i + 1)) (2 * i + 1) n hk
          have hlen := jqSwap_length s i (2 * i + 1)
          have hget := jqSwap_getElem_ne s i (2 * i + 1) k (by omega) (by omega)
          exact ⟨hs.1.trans hlen, hs.2.trans hget⟩

/-- The sift-up loop only touches slots at or below its start. -/
theorem jqUpLoop_high (nxt : Nat → Int) (k : Nat) :
    ∀ fuel : Nat, ∀ s : JQState, ∀ j : Nat, j < k →
      (jqUpLoop nxt fuel s j).q.length = s.q.length ∧
        (jqUpLoop nxt fuel s j).q[k]? = s.q[k]? := by
  intro fuel
  induction fuel with
  | zero =>
    intro s j _
    exact ⟨rfl, rfl⟩
  | succ f ih =>
    intro s j hj
    simp only [jqUpLoop]
    by_cases h1 : (j - 1) / 2 = j ∨ ¬ jqLess nxt s j ((j - 1) / 2) = true
    · rw [if_pos h1]
      exact ⟨rfl, rfl⟩
    · rw [if_neg h1]
      have hs := ih (jqSwap s ((j - 1) / 2) j) ((j - 1) / 2) (by omega)
      have hlen := jqSwap_length s ((j - 1) / 2) j
      have hget := jqSwap_getElem_ne s ((j - 1) / 2) j k (by omega) (by omega)
      exact ⟨hs.1.trans hlen, hs.2.trans hget⟩

/-- Popping the last slot marks the ejected job's `index` as `-1`. -/
theorem jqPop_idx_last {s : JQState} {a : Nat} (h : s.q.getLast? = some a) :
    (jqPop s).idx a = -1 := by
  unfold jqPop
  rw [h]
  simp

/-- `heap.Remove` at the slot holding job `j` ends with `j`'s `index`
at `-1`: the swap moves `j` to the last slot, sift-down and sift-up only
touch lower slots, and the final pop ejects `j`. -/
theorem heapRemove_idx (nxt : Nat → Int) (s : JQState) (i : Nat) (j : Nat)
    (hlen : i < s.q.length) (hij : s.q[i]? = some j) :
    (heapRemove nxt s i).idx j = -1 := by
  unfold heapRemove
  simp only
  by_cases hin : i ≠ s.q.length - 1
  · rw [if_pos hin]
    have hn : s.q.length - 1 < s.q.length := by omega
    obtain ⟨b, hb⟩ : ∃ b, s.q[s.q.length - 1]? = some b := by
      rw [List.getElem?_eq_getElem hn]
      exact ⟨_, rfl⟩
    have h1 : (jqSwap s i (s.q.length - 1)).q[s.q.length - 1]? = some j := by
      unfold jqSwap
      rw [hij, hb]
      simp only
      rw [List.getElem?_set_self]
      rw [List.length_set]
      omega
    have hl1 : (jqSwap s i (s.q.length - 1)).q.length = s.q.length :=
      jqSwap_length s i (s.q.length - 1)
    have hdown := jqDownLoop_high nxt (s.q.length - 1) (s.q.length - 1)
      (jqSwap s i (s.q.length - 1)) i (s.q.length - 1) (le_refl _)
    set p := jqDownLoop nxt (s.q.length - 1) (jqSwap s i (s.q.length - 1)) i
      (s.q.length - 1) with hp
    have hd1 : (jqDown nxt (jqSwap s i (s.q.length - 1)) i (s.q.length - 1)).1 = p.1 := rfl
    have hd2 : (jqDown nxt (jqSwap s i (s.q.length - 1)) i (s.q.length - 1)).2 =
        decide (i < p.2) := rfl
    rw [hd1, hd2]
    by_cases hmoved : decide (i < p.2) = true
    · rw [if_pos hmoved]
      have hlast : p.1.q.getLast? = some j := by
        rw [List.getLast?_eq_getElem? p.1.q, hdown.1, hl1, hdown.2, h1]
      exact jqPop_idx_last hlast
    · rw [if_neg hmoved]
      have hup := jqUpLoop_high nxt (s.q.length - 1) (i + 1) p.1 i (by omega)
      have hlast : (jqUp nxt p.1 i).q.getLast? = some j := by
        show (jqUpLoop nxt (i + 1) p.1 i).q.getLast? = some j
        rw [List.getLast?_eq_getElem?, hup.1, hdown.1, hl1, hup.2, hdown.2, h1]
      exact jqPop_idx_last hlast
  · rw [if_neg hin]
    have hieq : i = s.q.length - 1 := by omega
    have hlast : s.q.getLast? = some j := by
      rw [List.getLast?_eq_getElem?, ← hieq]
      exact hij
    exact jqPop_idx_last hlast

/-- C9.  A cancel request for a job whose `index` is `-1` (or negative),
whose `index` is outside the heap's current range, or whose heap slot
holds a different job, leaves the job queue completely unchanged; and
after a successful removal the job's `index` is `-1`, so cancelling the
same job a second time (or a job already removed) is a silent no-op. -/
theorem removeJob_cancel_frame :
    (∀ (nxt : Nat → Int) (s : JQState) (j : Nat),
      s.idx j < 0 ∨ (s.q.length : Int) ≤ s.idx j ∨ ¬ s.q[(s.idx j).toNat]? = some j →
      removeJob nxt s j = s) ∧
    (∀ (nxt : Nat → Int) (s : JQState) (j : Nat),
      0 ≤ s.idx j → s.idx j < (s.q.length : Int) →
      s.q[(s.idx j).toNat]? = some j →
      (removeJob nxt s j).idx j = -1 ∧
        removeJob nxt (removeJob nxt s j) j = removeJob nxt s j) := by
  have hnoop : ∀ (nxt : Nat → Int) (s : JQState) (j : Nat),
      s.idx j < 0 ∨ (s.q.length : Int) ≤ s.idx j ∨ ¬ s.q[(s.idx j).toNat]? = some j →
      removeJob nxt s j = s := by
    intro nxt s j h
    unfold removeJob
    by_cases hg : s.idx j < 0 ∨ (s.q.length : Int) ≤ s.idx j
    · rw [if_pos hg]
    · rw [if_neg hg]
      have hslot : ¬ s.q[(s.idx j).toNat]? = some j := by
        rcases h with h | h | h
        · exact absurd (Or.inl h) hg
        · exact absurd (Or.inr h) hg
        · exact h
      rw [if_neg hslot]
  refine ⟨hnoop, ?_⟩
  intro nxt s j h0 hlen hslot
  have hrem : removeJob nxt s j = heapRemove nxt s (s.idx j).toNat := by
    unfold removeJob
    rw [if_neg (by omega), if_pos hslot]
  have hidx : (removeJob nxt s j).idx j = -1 := by
    rw [hrem]
    exact heapRemove_idx nxt s (s.idx j).toNat j (by omega) hslot
  exact ⟨hidx, hnoop nxt (removeJob nxt s j) j (Or.inl (by omega))⟩

/-- C9 witness: cancelling a job whose `index` is already `-1` leaves a
one-job queue untouched. -/
theorem removeJob_cancel_frame_witness :
    removeJob (fun _ => 0) ⟨[5], fun k => if k = 7 then -1 else 0⟩ 7 =
      ⟨[5], fun k => if k = 7 then -1 else 0⟩ :=
  removeJob_cancel_frame.1 (fun _ => 0) ⟨[5], fun k => if k = 7 then -1 else 0⟩ 7
    (Or.inl (by decide))
